import Mathlib

/-!
Verification development for the search core of the `hise_mcp_server`
repository (`src/data-loader.ts`, class `HISEDataLoader`).

The embedding models the post-ingestion data (`HISEData`), index
construction (`buildIndexes` / `ensureSnippetsLoaded`), query
normalization (`normalizeQuery`), keyword extraction
(`extractKeywords`), the similarity scorer (`calculateSimilarity`),
the staged search pipeline (`search`), suggestion lookup
(`findSimilar`), related-item discovery (`getRelatedItems`) and cache
validation (`loadCache`).

Modelling conventions:
* JavaScript numbers are modelled as rationals (`ℚ`).  All score
  arithmetic in the source combines small decimal constants; the
  claims under verification only depend on exact values and ordering,
  which agree between `ℚ` and binary floating point for the
  comparisons performed here.  Rational arithmetic is written with the
  kernel-reducible primitives `qadd`/`qmul`/`qdiv` (proved equal to
  `+`/`*`/`/` below) so that concrete runs of the pipeline can be
  checked by `rfl`/`decide`.
* JavaScript strings are Lean `String`s; `String.prototype.toLowerCase`
  is modelled on basic-latin letters (`Char.toLower` maps `A`..`Z` to
  `a`..`z` and fixes everything else), which matches the source on all
  corpus identifiers (ASCII).
* `Map` objects are modelled as insertion-ordered association lists
  with `Map.set` replace-or-append semantics, `Set` objects as
  insertion-ordered duplicate-free lists.
* The wildcard `RegExp` built by the prefix stage is modelled by a
  small matching engine for the fragment reachable from wildcard
  substitution (literal characters, `.`, a star applied to an atom,
  simple character classes).  Compilation returns `none` both for
  patterns that are invalid in the source dialect (for example an
  unterminated character class, which makes `new RegExp` throw) and
  for metacharacter combinations outside the modelled fragment; the
  staged search propagates that as an exception, mirroring the absence
  of any try/catch around `new RegExp` in the source.
-/

/-- Kernel-reducible rational addition (proved equal to `+` in `qadd_eq`). -/
def qadd (a b : ℚ) : ℚ := Rat.divInt (a.num * b.den + b.num * a.den) ((a.den : ℤ) * (b.den : ℤ))

/-- Kernel-reducible rational multiplication (proved equal to `*` in `qmul_eq`). -/
def qmul (a b : ℚ) : ℚ := Rat.divInt (a.num * b.num) ((a.den : ℤ) * (b.den : ℤ))

/-- Kernel-reducible rational division (proved equal to `/` in `qdiv_eq`). -/
def qdiv (a b : ℚ) : ℚ := Rat.divInt (a.num * b.den) ((a.den : ℤ) * b.num)

/-- The character set removed by `String.prototype.trim` (whitespace and
line terminators), identified by code point. -/
def isJsSpace (c : Char) : Bool :=
  c.toNat = 32 || c.toNat = 9 || c.toNat = 10 || c.toNat = 13 ||
  c.toNat = 11 || c.toNat = 12 || c.toNat = 160 || c.toNat = 65279 ||
  c.toNat = 8232 || c.toNat = 8233

/-- JavaScript regular-expression line terminators (code points not matched by `.`). -/
def isLineTerm (c : Char) : Bool :=
  c.toNat = 10 || c.toNat = 13 || c.toNat = 8232 || c.toNat = 8233

/-- `String.prototype.toLowerCase`, modelled on basic-latin letters. -/
def jsLower (s : String) : String := String.mk (s.data.map Char.toLower)

/-- Drop leading and trailing JavaScript whitespace (`String.prototype.trim`). -/
def jsTrimList (l : List Char) : List Char :=
  ((l.dropWhile isJsSpace).reverse.dropWhile isJsSpace).reverse

/-- First replacement of `normalizeQuery`: strip a literal `()` suffix
(the regular expression `\(\)$`). -/
def stripEmptyParens (l : List Char) : List Char :=
  match l.reverse with
  | ')' :: '(' :: rest => rest.reverse
  | _ => l

/-- Position of the leftmost `(` from which the regular expression
`\(.*\)$` matches: every character strictly between it and the final
`)` must not be a line terminator (`.` does not cross newlines). -/
def argListPos : List Char → Option Nat
  | [] => none
  | c :: rest =>
    if c = '(' && (rest.dropLast).all (fun d => !(isLineTerm d)) then some 0
    else (argListPos rest).map (· + 1)

/-- Second replacement of `normalizeQuery`: strip a trailing
parenthesized argument list (the regular expression `\(.*\)$`). -/
def stripArgList (l : List Char) : List Char :=
  if l.getLast? = some ')' then
    match argListPos l with
    | some i => l.take i
    | none => l
  else l

/-- `normalizeQuery` from the source: strip a trailing `()`, strip a
trailing parenthesized argument list, lowercase, trim. -/
def normalizeQuery (q : String) : String :=
  String.mk (jsTrimList ((stripArgList (stripEmptyParens q.data)).map Char.toLower))

/-- `s.startsWith(p)`. -/
def strStarts (s p : String) : Bool := p.data.isPrefixOf s.data

/-- Substring test on character lists (`String.prototype.includes`). -/
def inclList (needle : List Char) : List Char → Bool
  | [] => needle.isEmpty
  | c :: rest => needle.isPrefixOf (c :: rest) || inclList needle rest

/-- `s.includes(p)`. -/
def strIncludes (s p : String) : Bool := inclList p.data s.data

/-- `String.prototype.split` with a single-character separator. -/
def splitChar (sep : Char) : List Char → List (List Char)
  | [] => [[]]
  | c :: rest =>
    if c = sep then [] :: splitChar sep rest
    else
      match splitChar sep rest with
      | [] => [[c]]
      | h :: t => (c :: h) :: t

/-- `s.split('.')`. -/
def splitDot (s : String) : List String := (splitChar '.' s.data).map String.mk

/-- `Set.prototype.add`: append if not already present. -/
def sInsert (s : List String) (x : String) : List String :=
  if s.contains x then s else s ++ [x]

/-- `Map.prototype.set`: replace in place or append. -/
def mapSet {α : Type} (m : List (String × α)) (k : String) (v : α) : List (String × α) :=
  if m.any (fun kv => kv.1 == k) then
    m.map (fun kv => if kv.1 == k then (k, v) else kv)
  else m ++ [(k, v)]

/-- `Map.prototype.get`. -/
def mapGet {α : Type} (m : List (String × α)) (k : String) : Option α :=
  (m.find? (fun kv => kv.1 == k)).map (fun kv => kv.2)

/-- Characters matched by the extraction regular expression `[a-z0-9]+`
(applied to lowercased text). -/
def isTokenChar (c : Char) : Bool :=
  (97 ≤ c.toNat && c.toNat ≤ 122) || (48 ≤ c.toNat && c.toNat ≤ 57)

/-- Maximal runs of token characters (`text.match(/[a-z0-9]+/g)`);
`cur` is the reversed run being accumulated. -/
def tokenRuns : List Char → List Char → List (List Char)
  | cur, [] => if cur.isEmpty then [] else [cur.reverse]
  | cur, c :: rest =>
    if isTokenChar c then tokenRuns (c :: cur) rest
    else (if cur.isEmpty then [] else [cur.reverse]) ++ tokenRuns [] rest

/-- The static stopword list of `HISEDataLoader`. -/
def STOPWORDS : List String :=
  ["the", "a", "an", "is", "are", "was", "were", "be", "been", "being",
   "have", "has", "had", "do", "does", "did", "will", "would", "could",
   "should", "may", "might", "must", "can", "to", "of", "in", "for", "on",
   "with", "at", "by", "from", "as", "into", "through", "during", "before",
   "after", "above", "below", "between", "under", "again", "further", "then",
   "once", "here", "there", "when", "where", "why", "how", "all", "each",
   "few", "more", "most", "other", "some", "such", "no", "nor", "not", "only",
   "own", "same", "so", "than", "too", "very", "just", "and", "but", "if",
   "or", "because", "until", "while", "this", "that", "these", "those", "it", "its"]

/-- Keep the first occurrence of every string (`Set` insertion order). -/
def dedupKeep : List String → List String → List String
  | _, [] => []
  | seen, x :: xs => if seen.contains x then dedupKeep seen xs else x :: dedupKeep (x :: seen) xs

/-- `extractKeywords(...texts)`: lowercase alphanumeric tokens of length
greater than two, minus stopwords, deduplicated in insertion order. -/
def extractKeywords (texts : List String) : List String :=
  dedupKeep []
    ((texts.map (fun t =>
      ((tokenRuns [] (jsLower t).data).map String.mk).filter
        (fun w => 2 < w.length && !(STOPWORDS.contains w)))).flatten)

/-- Canonical record for one UI component property (fields consumed by
the verified components; the remaining source fields are not read by
indexing or search). -/
structure UIComponentProperty where
  componentType : String
  propertyName : String
  description : String
deriving DecidableEq

/-- Canonical record for one scripting API method.  The source field
`namespace` is a Lean keyword and is called `nspace` here. -/
structure ScriptingAPIMethod where
  nspace : String
  methodName : String
  description : String
deriving DecidableEq

/-- Canonical record for one module parameter. -/
structure ModuleParameter where
  moduleType : String
  parameterId : String
  description : String
deriving DecidableEq

/-- Canonical record for one code snippet.  The `id` is produced
upstream by `transformSnippets` (a slug of the title). -/
structure CodeSnippet where
  id : String
  title : String
  description : String
  category : String
  tags : List String
  relatedAPIs : List String
  relatedComponents : List String
deriving DecidableEq

/-- The post-transform data held by `HISEDataLoader.data`. -/
structure HISEData where
  uiComponentProperties : List UIComponentProperty
  scriptingAPI : List ScriptingAPIMethod
  moduleParameters : List ModuleParameter
  codeSnippets : List CodeSnippet
deriving DecidableEq

/-- The `SearchDomain` union type. -/
inductive SearchDomain where
  | all
  | api
  | ui
  | modules
  | snippets
deriving DecidableEq

/-- One element of `allItems` (the flat catalog used by every stage). -/
structure CatalogItem where
  id : String
  domain : SearchDomain
  name : String
  description : String
  keywords : List String
deriving DecidableEq

/-- One search result; `matchType` is the string union
`exact | prefix | keyword | fuzzy` of the source. -/
structure SearchResult where
  id : String
  domain : SearchDomain
  name : String
  description : String
  score : ℚ
  matchType : String
deriving DecidableEq

def uiName (p : UIComponentProperty) : String := p.componentType ++ "." ++ p.propertyName

def uiKey (p : UIComponentProperty) : String := jsLower (uiName p)

def apiName (m : ScriptingAPIMethod) : String := m.nspace ++ "." ++ m.methodName

def apiKey (m : ScriptingAPIMethod) : String := jsLower (apiName m)

def modName (p : ModuleParameter) : String := p.moduleType ++ "." ++ p.parameterId

def modKey (p : ModuleParameter) : String := jsLower (modName p)

def uiItem (p : UIComponentProperty) : CatalogItem :=
  { id := uiKey p, domain := .ui, name := uiName p, description := p.description,
    keywords := extractKeywords [p.propertyName, p.description, p.componentType] }

def apiItem (m : ScriptingAPIMethod) : CatalogItem :=
  { id := apiKey m, domain := .api, name := apiName m, description := m.description,
    keywords := extractKeywords [m.methodName, m.description, m.nspace] }

def modItem (p : ModuleParameter) : CatalogItem :=
  { id := modKey p, domain := .modules, name := modName p, description := p.description,
    keywords := extractKeywords [p.parameterId, p.description, p.moduleType] }

def snipItem (s : CodeSnippet) : CatalogItem :=
  { id := s.id, domain := .snippets, name := s.title, description := s.description,
    keywords := extractKeywords ([s.title, s.description, s.category] ++ s.tags) }

/-- The mutable index state of `HISEDataLoader` after `buildIndexes`
(and, when `snipsLoaded` is set, after `ensureSnippetsLoaded`). -/
structure IndexState where
  propertyIndex : List (String × UIComponentProperty)
  apiMethodIndex : List (String × ScriptingAPIMethod)
  parameterIndex : List (String × ModuleParameter)
  snippetIndex : List (String × CodeSnippet)
  keywordIndex : List (String × List String)
  allItems : List CatalogItem

/-- `addToKeywordIndex(itemId, keywords)`. -/
def addToKeywordIndex (m : List (String × List String)) (itemId : String)
    (kws : List String) : List (String × List String) :=
  kws.foldl (fun acc kw =>
    match mapGet acc kw with
    | some ids => mapSet acc kw (sInsert ids itemId)
    | none => mapSet acc kw (sInsert [] itemId)) m

/-- `buildIndexes` (ui, api and module records, in source order),
followed by the snippet append of `ensureSnippetsLoaded` when
`snipsLoaded` is true. -/
def buildState (d : HISEData) (snipsLoaded : Bool) : IndexState :=
  let snipItems := if snipsLoaded then d.codeSnippets.map snipItem else []
  let items := d.uiComponentProperties.map uiItem ++ d.scriptingAPI.map apiItem ++
    d.moduleParameters.map modItem ++ snipItems
  { propertyIndex := d.uiComponentProperties.foldl (fun m p => mapSet m (uiKey p) p) []
    apiMethodIndex := d.scriptingAPI.foldl (fun m x => mapSet m (apiKey x) x) []
    parameterIndex := d.moduleParameters.foldl (fun m x => mapSet m (modKey x) x) []
    snippetIndex := if snipsLoaded then d.codeSnippets.foldl (fun m s => mapSet m s.id s) [] else []
    keywordIndex := items.foldl (fun m it => addToKeywordIndex m it.id it.keywords) []
    allItems := items }

/-- `calculateSimilarity(query, id, name, keywords)`: successive score
upgrades via `Math.max`, after a terminal equality check. -/
def calculateSimilarity (query idStr name : String) (keywords : List String) : ℚ :=
  if idStr == query || name == query then 1
  else
    let score0 : ℚ := 0
    let score1 := if strStarts idStr query || strStarts name query then max score0 (mkRat 8 10) else score0
    let score2 := if strIncludes idStr query || strIncludes name query then max score1 (mkRat 6 10) else score1
    let score3 := if (splitDot query).any (fun qp => (splitDot idStr).any (fun ip => strIncludes ip qp)) then max score2 (mkRat 5 10) else score2
    let score4 := if (extractKeywords [query]).any (fun qw => keywords.contains qw) then max score3 (mkRat 4 10) else score3
    score4

/-- An atom of the modelled regular-expression fragment. -/
inductive RAtom where
  | lit (c : Char)
  | dot
  | cls (cs : List Char)
deriving DecidableEq

/-- One token: an atom, or an atom under a star quantifier. -/
inductive RTok where
  | once (a : RAtom)
  | star (a : RAtom)
deriving DecidableEq

/-- `normalized.replace(/\*/g, '.*')`. -/
def wildcardPattern (norm : String) : String :=
  String.mk ((norm.data.map (fun c => if c = '*' then ['.', '*'] else [c])).flatten)

/-- Characters that begin regular-expression syntax outside the
modelled fragment (or are invalid at an atom position, like a bare
quantifier); compilation fails on them. -/
def metaChar (c : Char) : Bool :=
  c = '(' || c = ')' || c = '|' || c = '+' || c = '?' || c = '^' ||
  c = '$' || c = '\\' || c = '{' || c = '}' || c = ']' || c = '*'

/-- Class contents outside the modelled fragment (negation, ranges,
escapes). -/
def badClassChar (c : Char) : Bool := c = '^' || c = '-' || c = '\\'

/-- Split at the first occurrence of `sep`; `none` when absent. -/
def spanTo (sep : Char) : List Char → Option (List Char × List Char)
  | [] => none
  | c :: rest =>
    if c = sep then some ([], rest)
    else (spanTo sep rest).map (fun p => (c :: p.1, p.2))

/-- Fuelled parser for the anchored pattern body.  Returns `none` for
patterns that are invalid in the source dialect (such as an
unterminated character class) and for syntax outside the modelled
fragment. -/
def parseRegexAux : Nat → List Char → Option (List RTok)
  | _, [] => some []
  | 0, _ :: _ => none
  | fuel + 1, '.' :: '*' :: rest => (parseRegexAux fuel rest).map (fun ts => RTok.star .dot :: ts)
  | fuel + 1, '.' :: rest => (parseRegexAux fuel rest).map (fun ts => RTok.once .dot :: ts)
  | fuel + 1, '[' :: rest =>
    (match spanTo ']' rest with
     | none => none
     | some (cs, rem) =>
       if cs.any badClassChar then none
       else
         match rem with
         | '*' :: rem2 => (parseRegexAux fuel rem2).map (fun ts => RTok.star (.cls cs) :: ts)
         | _ => (parseRegexAux fuel rem).map (fun ts => RTok.once (.cls cs) :: ts))
  | fuel + 1, c :: rest =>
    if metaChar c then none
    else
      match rest with
      | '*' :: rest2 => (parseRegexAux fuel rest2).map (fun ts => RTok.star (.lit c) :: ts)
      | _ => (parseRegexAux fuel rest).map (fun ts => RTok.once (.lit c) :: ts)

/-- `new RegExp('^' + pattern + '$', 'i')`, as far as modelled. -/
def compileWildcard (pat : String) : Option (List RTok) :=
  parseRegexAux pat.data.length pat.data

/-- Does a single atom match a character? -/
def matchAtom (a : RAtom) (c : Char) : Bool :=
  match a with
  | .lit d => c == d
  | .dot => !(isLineTerm c)
  | .cls cs => cs.contains c

/-- Whole-string matching of the anchored token list.  The recursion
is fuelled to stay structurally recursive; every step shrinks
`tokens.length + input.length`, so any fuel above that bound gives the
backtracking semantics of the source regular expression. -/
def reMatch : Nat → List RTok → List Char → Bool
  | _, [], [] => true
  | _, [], _ :: _ => false
  | _, RTok.once _ :: _, [] => false
  | 0, _ :: _, _ => false
  | fuel + 1, RTok.once a :: ts, c :: cs => matchAtom a c && reMatch fuel ts cs
  | fuel + 1, RTok.star _ :: ts, [] => reMatch fuel ts []
  | fuel + 1, RTok.star a :: ts, c :: cs =>
    reMatch fuel ts (c :: cs) || (matchAtom a c && reMatch fuel (RTok.star a :: ts) cs)

/-- `regex.test(s)` with the `i` flag (both sides lowercased). -/
def regexTest (ts : List RTok) (s : String) : Bool :=
  reMatch (ts.length + s.data.length + 1) ts (jsLower s).data

/-- Stable insertion into a score-descending list: earlier elements
stay in front of later elements with an equal key, matching the
ECMAScript stable sort with comparator `(a, b) => b.score - a.score`. -/
def insertByKey {α : Type} (f : α → ℚ) (x : α) : List α → List α
  | [] => [x]
  | y :: ys => if f x < f y then y :: insertByKey f x ys else x :: y :: ys

/-- Stable score-descending sort. -/
def insSortByKey {α : Type} (f : α → ℚ) : List α → List α
  | [] => []
  | x :: xs => insertByKey f x (insSortByKey f xs)

def exactApiResult (m : ScriptingAPIMethod) : SearchResult :=
  { id := apiName m, domain := .api, name := apiName m, description := m.description,
    score := 1, matchType := "exact" }

def exactUiResult (p : UIComponentProperty) : SearchResult :=
  { id := uiName p, domain := .ui, name := uiName p, description := p.description,
    score := 1, matchType := "exact" }

def exactModResult (p : ModuleParameter) : SearchResult :=
  { id := modName p, domain := .modules, name := modName p, description := p.description,
    score := 1, matchType := "exact" }

def exactSnippetResult (s : CodeSnippet) : SearchResult :=
  { id := s.id, domain := .snippets, name := s.title, description := s.description,
    score := 1, matchType := "exact" }

def prefixResult (it : CatalogItem) : SearchResult :=
  { id := it.id, domain := it.domain, name := it.name, description := it.description,
    score := mkRat 9 10, matchType := "prefix" }

def keywordResult (it : CatalogItem) (score : ℚ) : SearchResult :=
  { id := it.id, domain := it.domain, name := it.name, description := it.description,
    score := score, matchType := "keyword" }

def fuzzyResult (it : CatalogItem) (score : ℚ) : SearchResult :=
  { id := it.id, domain := it.domain, name := it.name, description := it.description,
    score := score, matchType := "fuzzy" }

/-- `Math.min(0.8, 0.3 + (matchCount / queryKeywords.length) * 0.5)`. -/
def kwScore (m n : Nat) : ℚ :=
  min (mkRat 8 10) (qadd (mkRat 3 10) (qmul (qdiv (mkRat m 1) (mkRat n 1)) (mkRat 5 10)))

/-- One conditional block of the exact stage: on a dictionary hit,
push the result and add the normalized query to `seen`. -/
def exactPush (acc : List SearchResult × List String) (norm : String)
    (hit : Option SearchResult) : List SearchResult × List String :=
  match hit with
  | some r => (acc.1 ++ [r], sInsert acc.2 norm)
  | none => acc

/-- The api-dictionary lookup of the exact stage, guarded by domain. -/
def exactHitApi (st : IndexState) (norm : String) (d : SearchDomain) : Option SearchResult :=
  if d = .all ∨ d = .api then (mapGet st.apiMethodIndex norm).map exactApiResult else none

/-- The ui-dictionary lookup of the exact stage, guarded by domain. -/
def exactHitUi (st : IndexState) (norm : String) (d : SearchDomain) : Option SearchResult :=
  if d = .all ∨ d = .ui then (mapGet st.propertyIndex norm).map exactUiResult else none

/-- The module-dictionary lookup of the exact stage, guarded by domain. -/
def exactHitMod (st : IndexState) (norm : String) (d : SearchDomain) : Option SearchResult :=
  if d = .all ∨ d = .modules then (mapGet st.parameterIndex norm).map exactModResult else none

/-- The snippet-dictionary lookup of the exact stage, guarded by domain. -/
def exactHitSnip (st : IndexState) (norm : String) (d : SearchDomain) : Option SearchResult :=
  if d = .all ∨ d = .snippets then (mapGet st.snippetIndex norm).map exactSnippetResult else none

/-- Stage 1 of `search`: the four exact-dictionary lookups, in source
order (api, ui, modules, snippets). -/
def exactStage (st : IndexState) (norm : String) (d : SearchDomain) :
    List SearchResult × List String :=
  exactPush (exactPush (exactPush (exactPush ([], []) norm (exactHitApi st norm d))
    norm (exactHitUi st norm d)) norm (exactHitMod st norm d)) norm (exactHitSnip st norm d)

/-- Stage 2 loop of `search` (wildcard matching over the filtered
catalog, with the `2 × limit` accumulation cap checked after a push). -/
def prefixLoop (toks : List RTok) (cap : Nat) :
    List CatalogItem → List SearchResult → List String → List SearchResult × List String
  | [], res, seen => (res, seen)
  | it :: rest, res, seen =>
    if seen.contains it.id then prefixLoop toks cap rest res seen
    else if regexTest toks it.id || regexTest toks (jsLower it.name) then
      if cap ≤ (res ++ [prefixResult it]).length then (res ++ [prefixResult it], sInsert seen it.id)
      else prefixLoop toks cap rest (res ++ [prefixResult it]) (sInsert seen it.id)
    else prefixLoop toks cap rest res seen

/-- Per-item match counts across query tokens (`keywordMatches`),
in `Map` insertion order. -/
def bumpCount : List (String × Nat) → String → List (String × Nat)
  | [], idStr => [(idStr, 1)]
  | (k, n) :: rest, idStr =>
    if k == idStr then (k, n + 1) :: rest else (k, n) :: bumpCount rest idStr

def kwMatches (kidx : List (String × List String)) (qks : List String) :
    List (String × Nat) :=
  qks.foldl (fun acc kw =>
    match mapGet kidx kw with
    | some ids => ids.foldl bumpCount acc
    | none => acc) []

/-- Stage 3 loop of `search` (keyword matches, `3 × limit` cap). -/
def kwLoop (items : List CatalogItem) (nTok : Nat) (cap : Nat) :
    List (String × Nat) → List SearchResult → List String → List SearchResult × List String
  | [], res, seen => (res, seen)
  | (itemId, m) :: rest, res, seen =>
    if seen.contains itemId then kwLoop items nTok cap rest res seen
    else
      match items.find? (fun i => i.id == itemId) with
      | none => kwLoop items nTok cap rest res seen
      | some it =>
        if cap ≤ (res ++ [keywordResult it (kwScore m nTok)]).length then
          (res ++ [keywordResult it (kwScore m nTok)], sInsert seen itemId)
        else kwLoop items nTok cap rest (res ++ [keywordResult it (kwScore m nTok)]) (sInsert seen itemId)

/-- Stage 4 loop of `search` (fuzzy scoring of unseen items, threshold
`0.4`, `5 × limit` cap). -/
def fuzzyLoop (norm : String) (cap : Nat) :
    List CatalogItem → List SearchResult → List String → List SearchResult × List String
  | [], res, seen => (res, seen)
  | it :: rest, res, seen =>
    if seen.contains it.id then fuzzyLoop norm cap rest res seen
    else
      if mkRat 4 10 ≤ calculateSimilarity norm it.id (jsLower it.name) it.keywords then
        if cap ≤ (res ++ [fuzzyResult it (calculateSimilarity norm it.id (jsLower it.name) it.keywords)]).length then
          (res ++ [fuzzyResult it (calculateSimilarity norm it.id (jsLower it.name) it.keywords)],
            sInsert seen it.id)
        else fuzzyLoop norm cap rest
          (res ++ [fuzzyResult it (calculateSimilarity norm it.id (jsLower it.name) it.keywords)])
          (sInsert seen it.id)
      else fuzzyLoop norm cap rest res seen

/-- Stage 3 applied to an accumulator: tokenize the normalized query,
collect per-item match counts, and run the keyword loop. -/
def kwStage (st : IndexState) (norm : String) (items : List CatalogItem)
    (acc : List SearchResult × List String) (lim : Nat) : List SearchResult × List String :=
  kwLoop items (extractKeywords [norm]).length (lim * 3)
    (kwMatches st.keywordIndex (extractKeywords [norm])) acc.1 acc.2

/-- Stage 4 applied to an accumulator. -/
def fuzzyStage (norm : String) (items : List CatalogItem)
    (acc : List SearchResult × List String) (lim : Nat) : List SearchResult × List String :=
  fuzzyLoop norm (lim * 5) items acc.1 acc.2

/-- Stages 3 and 4 plus the early exits and the final sort-and-truncate,
shared by the wildcard and non-wildcard paths. -/
def searchTail (st : IndexState) (norm : String) (items : List CatalogItem)
    (acc : List SearchResult × List String) (lim : Nat) : Except Unit (List SearchResult) :=
  if lim ≤ acc.1.length then .ok ((insSortByKey SearchResult.score acc.1).take lim)
  else if lim ≤ (kwStage st norm items acc lim).1.length then
    .ok ((insSortByKey SearchResult.score (kwStage st norm items acc lim).1).take lim)
  else
    .ok ((insSortByKey SearchResult.score
      (fuzzyStage norm items (kwStage st norm items acc lim) lim).1).take lim)

/-- `itemsToSearch`: the catalog filtered once to the requested domain. -/
def searchItems (st : IndexState) (d : SearchDomain) : List CatalogItem :=
  if d = .all then st.allItems else st.allItems.filter (fun it => it.domain == d)

/-- `search(query, domain, limit)` over a built index state.  The
`.error` case models the uncaught `SyntaxError` that `new RegExp`
throws on an invalid wildcard pattern. -/
def searchIn (st : IndexState) (q : String) (d : SearchDomain) (lim : Nat) :
    Except Unit (List SearchResult) :=
  if lim ≤ (exactStage st (normalizeQuery q) d).1.length then
    .ok ((exactStage st (normalizeQuery q) d).1.take lim)
  else if (normalizeQuery q).data.contains '*' then
    match compileWildcard (wildcardPattern (normalizeQuery q)) with
    | none => .error ()
    | some toks =>
      searchTail st (normalizeQuery q) (searchItems st d)
        (prefixLoop toks (lim * 2) (searchItems st d)
          (exactStage st (normalizeQuery q) d).1 (exactStage st (normalizeQuery q) d).2) lim
  else
    searchTail st (normalizeQuery q) (searchItems st d) (exactStage st (normalizeQuery q) d) lim

/-- `search` on loader state: searching `all` or `snippets` first
ensures snippets are loaded (`ensureSnippetsLoaded`). -/
def searchData (dta : HISEData) (snipsLoaded : Bool) (q : String) (d : SearchDomain)
    (lim : Nat) : Except Unit (List SearchResult) :=
  searchIn (buildState dta (snipsLoaded || d == .all || d == .snippets)) q d lim

/-- The `results` array of `search` at the return point `searchTail`
takes, in push (first-seen) order: the incoming accumulation when the
post-prefix early exit fires, the keyword-stage accumulation when that
early exit fires, and otherwise the full fuzzy-stage accumulation. -/
def searchBasis (st : IndexState) (norm : String) (items : List CatalogItem)
    (acc : List SearchResult × List String) (lim : Nat) : List SearchResult :=
  if lim ≤ acc.1.length then acc.1
  else if lim ≤ (kwStage st norm items acc lim).1.length then (kwStage st norm items acc lim).1
  else (fuzzyStage norm items (kwStage st norm items acc lim) lim).1

/-- The `results` array of `search` at the taken return point, in push
(first-seen) order; `search` returns its stable score-descending sort
truncated to `limit` (the exact-stage early exit skips the sort, but
there every score is `1`).  Empty in the uncaught-exception case, which
returns nothing. -/
def searchInBasis (st : IndexState) (q : String) (d : SearchDomain) (lim : Nat) :
    List SearchResult :=
  if lim ≤ (exactStage st (normalizeQuery q) d).1.length then
    (exactStage st (normalizeQuery q) d).1
  else if (normalizeQuery q).data.contains '*' then
    match compileWildcard (wildcardPattern (normalizeQuery q)) with
    | none => []
    | some toks =>
      searchBasis st (normalizeQuery q) (searchItems st d)
        (prefixLoop toks (lim * 2) (searchItems st d)
          (exactStage st (normalizeQuery q) d).1 (exactStage st (normalizeQuery q) d).2) lim
  else
    searchBasis st (normalizeQuery q) (searchItems st d) (exactStage st (normalizeQuery q) d) lim

/-- `searchInBasis` on loader state, mirroring `searchData`. -/
def searchBasisData (dta : HISEData) (snipsLoaded : Bool) (q : String) (d : SearchDomain)
    (lim : Nat) : List SearchResult :=
  searchInBasis (buildState dta (snipsLoaded || d == .all || d == .snippets)) q d lim

/-- `findSimilar(query, limit, domain)` over a built index state. -/
def findSimilarIn (st : IndexState) (q : String) (lim : Nat) (d : SearchDomain) : List String :=
  ((insSortByKey (fun p : String × ℚ => p.2)
    (st.allItems.foldl (fun acc it =>
      if d ≠ .all ∧ it.domain ≠ d then acc
      else
        if mkRat 3 10 < calculateSimilarity (normalizeQuery q) it.id (jsLower it.name) it.keywords
        then acc ++ [(it.name, calculateSimilarity (normalizeQuery q) it.id (jsLower it.name) it.keywords)]
        else acc) [])).take lim).map (fun p => p.1)

/-- `findSimilar` on loader state (with the snippet lazy load). -/
def findSimilarData (dta : HISEData) (snipsLoaded : Bool) (q : String) (lim : Nat)
    (d : SearchDomain) : List String :=
  findSimilarIn (buildState dta (snipsLoaded || d == .all || d == .snippets)) q lim d

/-- The keyword-overlap score of `getRelatedItems`:
`overlap / Math.max(subject.keywords.length, 1)` plus the same-domain
bonus of 0.2. -/
def overlapScore (item other : CatalogItem) : ℚ :=
  qadd (qdiv (mkRat ((item.keywords.filter (fun k => other.keywords.contains k)).length) 1)
      (mkRat (max item.keywords.length 1) 1))
    (if other.domain == item.domain then mkRat 2 10 else 0)

/-- The keyword-overlap accumulation loop of `getRelatedItems`. -/
def relatedBase (st : IndexState) (norm : String) (item : CatalogItem) : List (String × ℚ) :=
  st.allItems.foldl (fun acc other =>
    if other.id == norm then acc
    else
      if 0 < (item.keywords.filter (fun k => other.keywords.contains k)).length then
        acc ++ [(other.name, overlapScore item other)]
      else acc) []

/-- The explicit snippet cross-reference injection of
`getRelatedItems` (fixed scores 0.9 / 0.85, case-insensitive
deduplication against entries already present). -/
def relatedWithRefs (st : IndexState) (norm : String) (item : CatalogItem) : List (String × ℚ) :=
  if item.domain == .snippets then
    match mapGet st.snippetIndex norm with
    | some sn =>
      sn.relatedComponents.foldl (fun acc compRef =>
        if acc.any (fun r => jsLower r.1 == jsLower compRef) then acc
        else acc ++ [(compRef, mkRat 85 100)])
        (sn.relatedAPIs.foldl (fun acc apiRef =>
          if acc.any (fun r => jsLower r.1 == jsLower apiRef) then acc
          else acc ++ [(apiRef, mkRat 9 10)]) (relatedBase st norm item))
    | none => relatedBase st norm item
  else relatedBase st norm item

/-- `getRelatedItems(id, limit)` over a built index state. -/
def getRelatedItemsIn (st : IndexState) (id0 : String) (lim : Nat) : List String :=
  match st.allItems.find? (fun i => i.id == normalizeQuery id0) with
  | none => []
  | some item =>
    ((insSortByKey (fun p : String × ℚ => p.2)
      (relatedWithRefs st (normalizeQuery id0) item)).take lim).map (fun p => p.1)

/-- The persisted cache snapshot shape (`version`, three source-file
modification timestamps, transformed data). -/
structure CacheSnapshot where
  version : String
  uiMtime : ℚ
  apiMtime : ℚ
  procMtime : ℚ
  data : HISEData
deriving DecidableEq

/-- Observable state of the cache file at load time: missing, not
readable/parsable (any thrown error is caught), or parsed. -/
inductive CacheFile where
  | absent
  | unreadable
  | parsed (c : CacheSnapshot)
deriving DecidableEq

/-- `loadCache()`: `none` models a `false` return (cache miss). -/
def loadCache (f : CacheFile) (uiM apiM procM : ℚ) : Option HISEData :=
  match f with
  | .absent => none
  | .unreadable => none
  | .parsed c =>
    if c.version ≠ "1.1" ∨ c.uiMtime ≠ uiM ∨ c.apiMtime ≠ apiM ∨ c.procMtime ≠ procM then none
    else some c.data

/-- `loadData()`: use the cached records on a hit, otherwise rebuild
from the raw source files (`fresh` stands for the transform of the raw
ingestion data, which is outside the verified core). -/
def loadData (f : CacheFile) (uiM apiM procM : ℚ) (fresh : HISEData) : HISEData :=
  match loadCache f uiM apiM procM with
  | some d => d
  | none => fresh

/-- Empty corpus. -/
def emptyData : HISEData := { uiComponentProperties := [], scriptingAPI := [], moduleParameters := [], codeSnippets := [] }

/-- One-method corpus: `Synth.addNoteOn`. -/
def synthMethod : ScriptingAPIMethod := { nspace := "Synth", methodName := "addNoteOn", description := "" }

def corpusSynth : HISEData := { uiComponentProperties := [], scriptingAPI := [synthMethod], moduleParameters := [], codeSnippets := [] }

/-- One-method corpus whose id begins with `synth` but not `synth.`. -/
def synthXMethod : ScriptingAPIMethod := { nspace := "SynthX", methodName := "Foo", description := "" }

def corpusSynthX : HISEData := { uiComponentProperties := [], scriptingAPI := [synthXMethod], moduleParameters := [], codeSnippets := [] }

/-- One-method corpus whose canonical id ends in `()`. -/
def parenMethod : ScriptingAPIMethod := { nspace := "A", methodName := "b()", description := "" }

def corpusParen : HISEData := { uiComponentProperties := [], scriptingAPI := [parenMethod], moduleParameters := [], codeSnippets := [] }

/-- A snippet that lists its own id among its related APIs. -/
def selfRefSnippet : CodeSnippet :=
  { id := "foo", title := "foo", description := "", category := "All", tags := [],
    relatedAPIs := ["foo"], relatedComponents := [] }

def corpusSnippet : HISEData := { uiComponentProperties := [], scriptingAPI := [], moduleParameters := [], codeSnippets := [selfRefSnippet] }

/-- Score-descending order (the comparator `(a, b) => b.score - a.score`). -/
def SortedDesc {α : Type} (f : α → ℚ) (l : List α) : Prop :=
  l.Pairwise (fun a b => f b ≤ f a)

/-- No two results share the `(id, domain)` pair. -/
def NoDupPair (res : List SearchResult) : Prop :=
  res.Pairwise (fun a b => ¬(a.id = b.id ∧ a.domain = b.domain))

/-- Every accumulated result is protected by the `seen` set: snippet
results by their exact id, other results by their lowercased id. -/
def SeenInv (res : List SearchResult) (seen : List String) : Prop :=
  ∀ r ∈ res, (r.domain = .snippets → r.id ∈ seen) ∧
    (r.domain ≠ .snippets → jsLower r.id ∈ seen)

/-- The contract properties of one search result: score within `[0, 1]`
and a matchType from the four-stage union. -/
def ResultOk (r : SearchResult) : Prop :=
  0 ≤ r.score ∧ r.score ≤ 1 ∧
    (r.matchType = "exact" ∨ r.matchType = "prefix" ∨
     r.matchType = "keyword" ∨ r.matchType = "fuzzy")

/-- The compiled form of the wildcard pattern `synth..*` produced by
the query `Synth.*`. -/
def synthToks : List RTok :=
  [.once (.lit 's'), .once (.lit 'y'), .once (.lit 'n'), .once (.lit 't'), .once (.lit 'h'),
   .once .dot, .star .dot]

/-- The `findSimilar` contract as worded by the specification (with the
projection corrected to display names): the items of the requested
domain whose similarity against the normalized query exceeds 0.3,
sorted score-descending (stable), truncated to `limit`, projected. -/
def findSimilarPipeline (st : IndexState) (q : String) (lim : Nat) (d : SearchDomain) :
    List String :=
  ((insSortByKey (fun p : String × ℚ => p.2)
    (((st.allItems.filter (fun it => decide (d = .all ∨ it.domain = d))).filter
      (fun it => decide (mkRat 3 10 <
        calculateSimilarity (normalizeQuery q) it.id (jsLower it.name) it.keywords))).map
      (fun it => (it.name,
        calculateSimilarity (normalizeQuery q) it.id (jsLower it.name) it.keywords)))).take
    lim).map (fun p => p.1)

/-- The keyword-overlap contract of `getRelatedItems` as worded by the
specification: every other catalog entry with a nonzero keyword overlap
against the subject, scored by `overlapScore`, sorted score-descending
(stable), truncated, projected to display names. -/
def relatedPipeline (st : IndexState) (id0 : String) (item : CatalogItem) (lim : Nat) :
    List String :=
  ((insSortByKey (fun p : String × ℚ => p.2)
    ((st.allItems.filter (fun other => !(other.id == normalizeQuery id0) &&
      decide (0 < (item.keywords.filter (fun k => other.keywords.contains k)).length))).map
      (fun other => (other.name, overlapScore item other)))).take lim).map (fun p => p.1)

def uiPropText : UIComponentProperty :=
  { componentType := "Btn", propertyName := "textColour", description := "text colour" }

def uiPropBg : UIComponentProperty :=
  { componentType := "Btn", propertyName := "bgColour", description := "fill colour" }

def corpusUi : HISEData :=
  { uiComponentProperties := [uiPropText, uiPropBg], scriptingAPI := [],
    moduleParameters := [], codeSnippets := [] }

/-- A method whose canonical id `a.x[*` is a normalization fixed point
but contains both `*` and an unterminated character class. -/
def brokenKeyMethod : ScriptingAPIMethod :=
  { nspace := "A", methodName := "x[*", description := "" }

def corpusBrokenKey : HISEData :=
  { uiComponentProperties := [], scriptingAPI := [brokenKeyMethod],
    moduleParameters := [], codeSnippets := [] }

theorem qadd_eq (a b : ℚ) : qadd a b = a + b := by
  have ha : (a.den : ℤ) ≠ 0 := by exact_mod_cast a.den_nz
  have hb : (b.den : ℤ) ≠ 0 := by exact_mod_cast b.den_nz
  rw [qadd, ← Rat.divInt_add_divInt _ _ ha hb, Rat.num_divInt_den, Rat.num_divInt_den]

theorem qmul_eq (a b : ℚ) : qmul a b = a * b := by
  have ha : (a.den : ℤ) ≠ 0 := by exact_mod_cast a.den_nz
  have hb : (b.den : ℤ) ≠ 0 := by exact_mod_cast b.den_nz
  rw [qmul, ← Rat.divInt_mul_divInt _ _ ha hb, Rat.num_divInt_den, Rat.num_divInt_den]

theorem qdiv_eq (a b : ℚ) : qdiv a b = a / b := by
  by_cases hb0 : b = 0
  · subst hb0
    simp [qdiv, Rat.divInt_eq_div]
  · have ha : (a.den : ℤ) ≠ 0 := by exact_mod_cast a.den_nz
    have hbn : b.num ≠ 0 := Rat.num_ne_zero.mpr hb0
    rw [qdiv, ← Rat.divInt_mul_divInt _ _ ha hbn, Rat.num_divInt_den]
    rw [div_eq_mul_inv, Rat.inv_def']

theorem mkRat_nonneg_of_nat (m : ℕ) (n : ℕ) : 0 ≤ mkRat (m : ℤ) n := by
  rw [Rat.mkRat_eq_div]
  positivity

theorem char_toNat_inj {a b : Char} (h : a.toNat = b.toNat) : a = b :=
  Char.ext (UInt32.toNat.inj h)

theorem toNat_toLower (c : Char) :
    (Char.toLower c).toNat = if 65 ≤ c.toNat ∧ c.toNat ≤ 90 then c.toNat + 32 else c.toNat := by
  simp only [Char.toLower]
  split
  · next h =>
    have hv : (c.toNat + 32).isValidChar := Or.inl (by omega)
    simp only [Char.ofNat, dif_pos hv]
    rfl
  · next h =>
    rfl

theorem toLower_eq_self {c : Char} (h : ¬(65 ≤ c.toNat ∧ c.toNat ≤ 90)) :
    Char.toLower c = c := by
  apply char_toNat_inj
  rw [toNat_toLower, if_neg h]

theorem toLower_toLower (c : Char) : Char.toLower (Char.toLower c) = Char.toLower c := by
  by_cases h : 65 ≤ c.toNat ∧ c.toNat ≤ 90
  · have h32 : (Char.toLower c).toNat = c.toNat + 32 := by rw [toNat_toLower, if_pos h]
    apply char_toNat_inj
    rw [toNat_toLower (Char.toLower c), h32, if_neg (by omega)]
  · rw [toLower_eq_self h, toLower_eq_self h]

theorem toLower_eq_iff_of_nonletter {t : Char}
    (htl : ¬(97 ≤ t.toNat ∧ t.toNat ≤ 122)) (htu : ¬(65 ≤ t.toNat ∧ t.toNat ≤ 90))
    (c : Char) : Char.toLower c = t ↔ c = t := by
  constructor
  · intro h
    by_cases hc : 65 ≤ c.toNat ∧ c.toNat ≤ 90
    · exfalso
      apply htl
      have h2 := congrArg Char.toNat h
      rw [toNat_toLower, if_pos hc] at h2
      omega
    · rwa [toLower_eq_self hc] at h
  · intro h
    subst h
    exact toLower_eq_self htu

theorem isJsSpace_toLower (c : Char) : isJsSpace (Char.toLower c) = isJsSpace c := by
  by_cases h : 65 ≤ c.toNat ∧ c.toNat ≤ 90
  · have h32 : (Char.toLower c).toNat = c.toNat + 32 := by rw [toNat_toLower, if_pos h]
    have l : isJsSpace (Char.toLower c) = false := by
      simp only [isJsSpace, h32, Bool.or_eq_false_iff, decide_eq_false_iff_not]
      omega
    have r : isJsSpace c = false := by
      simp only [isJsSpace, Bool.or_eq_false_iff, decide_eq_false_iff_not]
      omega
    rw [l, r]
  · rw [toLower_eq_self h]

example : normalizeQuery "Synth.addNoteOn()" = "synth.addnoteon" := by rfl

example : normalizeQuery "Synth.addNoteOn" = "synth.addnoteon" := by rfl

example : normalizeQuery "a() " = "a()" := by rfl

example : normalizeQuery "a()" = "a" := by rfl

example : normalizeQuery "Synth.addNoteOn(x, y)" = "synth.addnoteon" := by rfl

example : normalizeQuery "  Synth.* " = "synth.*" := by rfl

example : splitDot "a.b" = ["a", "b"] := by rfl

example : splitDot "" = [""] := by rfl

example : splitDot "a." = ["a", ""] := by rfl

example : extractKeywords ["addNoteOn", "", "Synth"] = ["addnoteon", "synth"] := by rfl

example : extractKeywords ["the midi Note-on!"] = ["midi", "note"] := by rfl

example : extractKeywords ["a.b"] = [] := by rfl

example : strIncludes "synth.addnoteon" "note" = true := by rfl

example : strStarts "synth.addnoteon" "synth" = true := by rfl

example : searchData emptyData false "foo[*" .all 10 = .error () := by rfl

example : searchData corpusSynth false "Synth.addNoteOn()" .all 1 = .ok [exactApiResult synthMethod] := by rfl

example : searchData corpusSynthX false "Synth.*" .api 10 = .ok [prefixResult (apiItem synthXMethod)] := by rfl

example : searchData corpusParen false "a.b()" .all 5 = .ok [fuzzyResult (apiItem parenMethod) (mkRat 8 10)] := by rfl

example : findSimilarData corpusSynth false "synth" 5 .api = ["Synth.addNoteOn"] := by rfl

example : getRelatedItemsIn (buildState corpusSnippet true) "foo" 5 = ["foo"] := by rfl

example : searchData corpusSynth false "Synth.*" .api 10 = .ok [prefixResult (apiItem synthMethod)] := by rfl

theorem contains_iff_mem {l : List String} {x : String} : l.contains x = true ↔ x ∈ l :=
  List.elem_iff

theorem mem_sInsert {s : List String} {x y : String} :
    x ∈ sInsert s y ↔ x ∈ s ∨ x = y := by
  unfold sInsert
  split
  · next h =>
    have hy : y ∈ s := contains_iff_mem.mp h
    constructor
    · exact Or.inl
    · rintro (hx | rfl)
      · exact hx
      · exact hy
  · simp [List.mem_append]

theorem sInsert_subset {s : List String} {y : String} : s ⊆ sInsert s y := by
  intro x hx
  exact mem_sInsert.mpr (Or.inl hx)

theorem mem_sInsert_self {s : List String} {y : String} : y ∈ sInsert s y :=
  mem_sInsert.mpr (Or.inr rfl)

theorem mem_insertByKey {α : Type} (f : α → ℚ) {x a : α} :
    ∀ {l : List α}, a ∈ insertByKey f x l ↔ a = x ∨ a ∈ l := by
  intro l
  induction l with
  | nil => simp [insertByKey]
  | cons y ys ih =>
    unfold insertByKey
    split
    · simp only [List.mem_cons, ih]
      tauto
    · simp only [List.mem_cons]

theorem insertByKey_perm {α : Type} (f : α → ℚ) (x : α) :
    ∀ (l : List α), (insertByKey f x l).Perm (x :: l) := by
  intro l
  induction l with
  | nil => rfl
  | cons y ys ih =>
    unfold insertByKey
    split
    · exact (ih.cons y).trans (List.Perm.swap x y ys)
    · rfl

theorem insSortByKey_perm {α : Type} (f : α → ℚ) :
    ∀ (l : List α), (insSortByKey f l).Perm l := by
  intro l
  induction l with
  | nil => rfl
  | cons x xs ih => exact ((insertByKey_perm f x (insSortByKey f xs)).trans (ih.cons x))

theorem mem_insSortByKey {α : Type} (f : α → ℚ) {a : α} {l : List α} :
    a ∈ insSortByKey f l ↔ a ∈ l :=
  (insSortByKey_perm f l).mem_iff

theorem insertByKey_sorted {α : Type} (f : α → ℚ) {x : α} :
    ∀ {l : List α}, SortedDesc f l → SortedDesc f (insertByKey f x l) := by
  intro l
  induction l with
  | nil =>
    intro _
    exact List.pairwise_singleton _ _
  | cons y ys ih =>
    intro h
    have hy : ∀ b ∈ ys, f b ≤ f y := (List.pairwise_cons.mp h).1
    have hys : SortedDesc f ys := (List.pairwise_cons.mp h).2
    unfold insertByKey
    split
    · next hlt =>
      refine List.Pairwise.cons ?_ (ih hys)
      intro b hb
      rcases (mem_insertByKey f).mp hb with rfl | hb2
      · exact le_of_lt hlt
      · exact hy b hb2
    · next hge =>
      refine List.Pairwise.cons ?_ h
      intro b hb
      rcases List.mem_cons.mp hb with rfl | hb2
      · exact le_of_not_lt hge
      · exact le_trans (hy b hb2) (le_of_not_lt hge)

theorem insSortByKey_sorted {α : Type} (f : α → ℚ) :
    ∀ (l : List α), SortedDesc f (insSortByKey f l) := by
  intro l
  induction l with
  | nil => exact List.Pairwise.nil
  | cons x xs ih => exact insertByKey_sorted f ih

theorem insertByKey_eq_cons {α : Type} (f : α → ℚ) {x : α} {l : List α}
    (h : ∀ y ∈ l, ¬ f x < f y) : insertByKey f x l = x :: l := by
  cases l with
  | nil => rfl
  | cons y ys => exact if_neg (h y (List.mem_cons_self y ys))

theorem sortedDesc_take {α : Type} (f : α → ℚ) {l : List α} (n : ℕ)
    (h : SortedDesc f l) : SortedDesc f (l.take n) :=
  List.Pairwise.sublist (List.take_sublist n l) h

/-- Stability of the insertion sort: the elements at any fixed score
keep their relative (first-seen) order. -/
theorem insertByKey_filter {α : Type} (f : α → ℚ) (x : α) (s : ℚ) :
    ∀ (l : List α),
      (insertByKey f x l).filter (fun a => decide (f a = s)) =
        if f x = s then x :: l.filter (fun a => decide (f a = s))
        else l.filter (fun a => decide (f a = s)) := by
  intro l
  induction l with
  | nil =>
    by_cases h : f x = s <;> simp [insertByKey, List.filter_cons, h]
  | cons y ys ih =>
    unfold insertByKey
    split
    · next hlt =>
      by_cases hxs : f x = s
      · have hys : ¬ f y = s := by
          intro he
          rw [hxs, he] at hlt
          exact lt_irrefl s hlt
        rw [if_pos hxs]
        simp only [List.filter_cons, decide_eq_true_eq]
        rw [if_neg hys, if_neg hys, ih, if_pos hxs]
      · rw [if_neg hxs]
        simp only [List.filter_cons, decide_eq_true_eq]
        rw [ih, if_neg hxs]
    · next hge =>
      by_cases hxs : f x = s <;> simp [List.filter_cons, hxs]

theorem insSortByKey_filter {α : Type} (f : α → ℚ) (s : ℚ) :
    ∀ (l : List α),
      (insSortByKey f l).filter (fun a => decide (f a = s)) =
        l.filter (fun a => decide (f a = s)) := by
  intro l
  induction l with
  | nil => rfl
  | cons x xs ih =>
    rw [insSortByKey, insertByKey_filter f x s (insSortByKey f xs), ih]
    by_cases h : f x = s <;> simp [List.filter_cons, h]

theorem mapGet_mem {α : Type} {m : List (String × α)} {k : String} {v : α}
    (h : mapGet m k = some v) : (k, v) ∈ m := by
  unfold mapGet at h
  cases hf : m.find? (fun kv => kv.1 == k) with
  | none => rw [hf] at h; cases h
  | some kv =>
    rw [hf] at h
    have hp := List.find?_some hf
    have hm := List.mem_of_find?_eq_some hf
    have hk : kv.1 = k := by simpa using hp
    have hv : kv.2 = v := by simpa using h
    rw [← hk, ← hv]
    exact hm

theorem mapSet_forall {α : Type} {P : String × α → Prop} {m : List (String × α)}
    {k : String} {v : α} (hm : ∀ kv ∈ m, P kv) (hkv : P (k, v)) :
    ∀ kv ∈ mapSet m k v, P kv := by
  unfold mapSet
  split
  · intro kv hkv2
    rcases List.mem_map.mp hkv2 with ⟨kv0, hkv0, heq⟩
    split at heq
    · rw [← heq]
      exact hkv
    · rw [← heq]
      exact hm kv0 hkv0
  · intro kv hkv2
    rcases List.mem_append.mp hkv2 with h | h
    · exact hm kv h
    · rw [List.mem_singleton.mp h]
      exact hkv

theorem foldl_mapSet_forall {α : Type} (key : α → String) (P : String × α → Prop) :
    ∀ (l : List α) (m0 : List (String × α)), (∀ x ∈ l, P (key x, x)) → (∀ kv ∈ m0, P kv) →
      ∀ kv ∈ l.foldl (fun m x => mapSet m (key x) x) m0, P kv := by
  intro l
  induction l with
  | nil =>
    intro m0 _ hm0
    exact hm0
  | cons x xs ih =>
    intro m0 hl hm0
    exact ih (mapSet m0 (key x) x) (fun y hy => hl y (List.mem_cons_of_mem x hy))
      (mapSet_forall hm0 (hl x (List.mem_cons_self x xs)))

theorem buildState_apiIndex (dta : HISEData) (ws : Bool) :
    (buildState dta ws).apiMethodIndex =
      dta.scriptingAPI.foldl (fun m x => mapSet m (apiKey x) x) [] := rfl

theorem buildState_propIndex (dta : HISEData) (ws : Bool) :
    (buildState dta ws).propertyIndex =
      dta.uiComponentProperties.foldl (fun m p => mapSet m (uiKey p) p) [] := rfl

theorem buildState_paramIndex (dta : HISEData) (ws : Bool) :
    (buildState dta ws).parameterIndex =
      dta.moduleParameters.foldl (fun m x => mapSet m (modKey x) x) [] := rfl

theorem buildState_snipIndex (dta : HISEData) (ws : Bool) :
    (buildState dta ws).snippetIndex =
      (if ws then dta.codeSnippets.foldl (fun m s => mapSet m s.id s) [] else []) := rfl

theorem buildState_allItems (dta : HISEData) (ws : Bool) :
    (buildState dta ws).allItems =
      dta.uiComponentProperties.map uiItem ++ dta.scriptingAPI.map apiItem ++
        dta.moduleParameters.map modItem ++
        (if ws then dta.codeSnippets.map snipItem else []) := rfl

theorem apiIndex_hit {dta : HISEData} {ws : Bool} {k : String} {m : ScriptingAPIMethod}
    (h : mapGet (buildState dta ws).apiMethodIndex k = some m) : apiKey m = k := by
  rw [buildState_apiIndex] at h
  exact (foldl_mapSet_forall apiKey (fun kv => apiKey kv.2 = kv.1) dta.scriptingAPI []
    (fun x _ => rfl) (by intro kv hkv; cases hkv) (k, m) (mapGet_mem h))

theorem propIndex_hit {dta : HISEData} {ws : Bool} {k : String} {p : UIComponentProperty}
    (h : mapGet (buildState dta ws).propertyIndex k = some p) : uiKey p = k := by
  rw [buildState_propIndex] at h
  exact (foldl_mapSet_forall uiKey (fun kv => uiKey kv.2 = kv.1) dta.uiComponentProperties []
    (fun x _ => rfl) (by intro kv hkv; cases hkv) (k, p) (mapGet_mem h))

theorem paramIndex_hit {dta : HISEData} {ws : Bool} {k : String} {p : ModuleParameter}
    (h : mapGet (buildState dta ws).parameterIndex k = some p) : modKey p = k := by
  rw [buildState_paramIndex] at h
  exact (foldl_mapSet_forall modKey (fun kv => modKey kv.2 = kv.1) dta.moduleParameters []
    (fun x _ => rfl) (by intro kv hkv; cases hkv) (k, p) (mapGet_mem h))

theorem snipIndex_hit {dta : HISEData} {ws : Bool} {k : String} {s : CodeSnippet}
    (h : mapGet (buildState dta ws).snippetIndex k = some s) : s.id = k := by
  rw [buildState_snipIndex] at h
  by_cases hws : ws
  · rw [if_pos hws] at h
    exact (foldl_mapSet_forall CodeSnippet.id (fun kv => kv.2.id = kv.1) dta.codeSnippets []
      (fun x _ => rfl) (by intro kv hkv; cases hkv) (k, s) (mapGet_mem h))
  · rw [if_neg hws] at h
    cases h

theorem jsLower_jsLower (s : String) : jsLower (jsLower s) = jsLower s := by
  unfold jsLower
  simp only [List.map_map]
  exact congrArg String.mk (List.map_congr_left (fun c _ => toLower_toLower c))

theorem mem_jsTrimList {l : List Char} {c : Char} (h : c ∈ jsTrimList l) : c ∈ l := by
  unfold jsTrimList at h
  rw [List.mem_reverse] at h
  have h2 := (List.dropWhile_sublist _).mem h
  rw [List.mem_reverse] at h2
  exact (List.dropWhile_sublist _).mem h2

/-- The output of `normalizeQuery` is already lowercased. -/
theorem jsLower_normalizeQuery (q : String) :
    jsLower (normalizeQuery q) = normalizeQuery q := by
  unfold normalizeQuery jsLower
  refine congrArg String.mk ?_
  have hchars : ∀ c ∈ jsTrimList ((stripArgList (stripEmptyParens q.data)).map Char.toLower),
      Char.toLower c = c := by
    intro c hc
    rcases List.mem_map.mp (mem_jsTrimList hc) with ⟨c0, _, rfl⟩
    exact toLower_toLower c0
  calc (jsTrimList ((stripArgList (stripEmptyParens q.data)).map Char.toLower)).map Char.toLower
      = (jsTrimList ((stripArgList (stripEmptyParens q.data)).map Char.toLower)).map id :=
        List.map_congr_left hchars
    _ = _ := List.map_id _

/-- Every non-snippet catalog entry id is fixed by lowercasing. -/
theorem allItems_id_lower {dta : HISEData} {ws : Bool} :
    ∀ it ∈ (buildState dta ws).allItems, it.domain ≠ .snippets → jsLower it.id = it.id := by
  rw [buildState_allItems]
  intro it hit hns
  rcases List.mem_append.mp hit with h3 | hsnip
  · rcases List.mem_append.mp h3 with h2 | hmod
    · rcases List.mem_append.mp h2 with hui | hapi
      · rcases List.mem_map.mp hui with ⟨p, _, rfl⟩
        exact jsLower_jsLower (uiName p)
      · rcases List.mem_map.mp hapi with ⟨m, _, rfl⟩
        exact jsLower_jsLower (apiName m)
    · rcases List.mem_map.mp hmod with ⟨p, _, rfl⟩
      exact jsLower_jsLower (modName p)
  · rcases hsnip2 : ws with _ | _
    · rw [hsnip2, if_neg (by simp)] at hsnip
      cases hsnip
    · rw [hsnip2, if_pos rfl] at hsnip
      rcases List.mem_map.mp hsnip with ⟨s, _, rfl⟩
      exact absurd rfl hns

theorem exactHitApi_spec {dta : HISEData} {ws : Bool} {norm : String} {d : SearchDomain}
    {r : SearchResult} (h : exactHitApi (buildState dta ws) norm d = some r) :
    r.score = 1 ∧ r.matchType = "exact" ∧ jsLower r.id = norm ∧ r.domain = .api := by
  unfold exactHitApi at h
  split at h
  · cases hm : mapGet (buildState dta ws).apiMethodIndex norm with
    | none => rw [hm] at h; cases h
    | some m =>
      rw [hm] at h
      have hk := apiIndex_hit hm
      obtain rfl : r = exactApiResult m := by simpa using h.symm
      exact ⟨rfl, rfl, hk, rfl⟩
  · cases h

theorem exactHitUi_spec {dta : HISEData} {ws : Bool} {norm : String} {d : SearchDomain}
    {r : SearchResult} (h : exactHitUi (buildState dta ws) norm d = some r) :
    r.score = 1 ∧ r.matchType = "exact" ∧ jsLower r.id = norm ∧ r.domain = .ui := by
  unfold exactHitUi at h
  split at h
  · cases hm : mapGet (buildState dta ws).propertyIndex norm with
    | none => rw [hm] at h; cases h
    | some p =>
      rw [hm] at h
      have hk := propIndex_hit hm
      obtain rfl : r = exactUiResult p := by simpa using h.symm
      exact ⟨rfl, rfl, hk, rfl⟩
  · cases h

theorem exactHitMod_spec {dta : HISEData} {ws : Bool} {norm : String} {d : SearchDomain}
    {r : SearchResult} (h : exactHitMod (buildState dta ws) norm d = some r) :
    r.score = 1 ∧ r.matchType = "exact" ∧ jsLower r.id = norm ∧ r.domain = .modules := by
  unfold exactHitMod at h
  split at h
  · cases hm : mapGet (buildState dta ws).parameterIndex norm with
    | none => rw [hm] at h; cases h
    | some p =>
      rw [hm] at h
      have hk := paramIndex_hit hm
      obtain rfl : r = exactModResult p := by simpa using h.symm
      exact ⟨rfl, rfl, hk, rfl⟩
  · cases h

theorem exactHitSnip_spec {dta : HISEData} {ws : Bool} {norm : String} {d : SearchDomain}
    {r : SearchResult} (h : exactHitSnip (buildState dta ws) norm d = some r) :
    r.score = 1 ∧ r.matchType = "exact" ∧ r.id = norm ∧ r.domain = .snippets := by
  unfold exactHitSnip at h
  split at h
  · cases hm : mapGet (buildState dta ws).snippetIndex norm with
    | none => rw [hm] at h; cases h
    | some s =>
      rw [hm] at h
      have hk := snipIndex_hit hm
      obtain rfl : r = exactSnippetResult s := by simpa using h.symm
      exact ⟨rfl, rfl, hk, rfl⟩
  · cases h

theorem exactStage_eq (st : IndexState) (norm : String) (d : SearchDomain) :
    exactStage st norm d =
      ((exactHitApi st norm d).toList ++ (exactHitUi st norm d).toList ++
        (exactHitMod st norm d).toList ++ (exactHitSnip st norm d).toList,
       if exactHitApi st norm d = none ∧ exactHitUi st norm d = none ∧
          exactHitMod st norm d = none ∧ exactHitSnip st norm d = none
       then [] else [norm]) := by
  unfold exactStage
  cases exactHitApi st norm d <;> cases exactHitUi st norm d <;>
    cases exactHitMod st norm d <;> cases exactHitSnip st norm d <;>
      simp [exactPush, sInsert]

theorem pairwise_four_blocks {o1 o2 o3 o4 : Option SearchResult}
    (h1 : ∀ r, o1 = some r → r.domain = .api) (h2 : ∀ r, o2 = some r → r.domain = .ui)
    (h3 : ∀ r, o3 = some r → r.domain = .modules)
    (h4 : ∀ r, o4 = some r → r.domain = .snippets) :
    (o1.toList ++ o2.toList ++ o3.toList ++ o4.toList).Pairwise
      (fun a b => a.domain ≠ b.domain) := by
  cases o1 with
  | none => ?_
  | some r1 => ?_
  all_goals cases o2 with
  | none => ?_
  | some r2 => ?_
  all_goals cases o3 with
  | none => ?_
  | some r3 => ?_
  all_goals cases o4 with
  | none => ?_
  | some r4 => ?_
  all_goals
    simp_all [List.pairwise_cons]

theorem seenInv_mono {res : List SearchResult} {seen seen2 : List String}
    (h : SeenInv res seen) (hsub : seen ⊆ seen2) : SeenInv res seen2 := by
  intro r hr
  exact ⟨fun hd => hsub ((h r hr).1 hd), fun hd => hsub ((h r hr).2 hd)⟩

theorem seenInv_push {res : List SearchResult} {seen : List String} {r : SearchResult}
    (h : SeenInv res seen) (h1 : r.domain = .snippets → r.id ∈ seen)
    (h2 : r.domain ≠ .snippets → jsLower r.id ∈ seen) : SeenInv (res ++ [r]) seen := by
  intro r' hr'
  rcases List.mem_append.mp hr' with hm | hm
  · exact h r' hm
  · rw [List.mem_singleton.mp hm]
    exact ⟨h1, h2⟩

theorem noDupPair_push {res : List SearchResult} {r : SearchResult} (h : NoDupPair res)
    (hall : ∀ r' ∈ res, ¬(r'.id = r.id ∧ r'.domain = r.domain)) : NoDupPair (res ++ [r]) := by
  rw [NoDupPair, List.pairwise_append]
  exact ⟨h, List.pairwise_singleton _ _,
    fun a ha b hb => by rw [List.mem_singleton.mp hb]; exact hall a ha⟩

/-- A fresh id blocks any duplicate `(id, domain)` pair against the
accumulated results. -/
theorem seen_blocks {res : List SearchResult} {seen : List String}
    (hseen : SeenInv res seen) {newId : String} {newDom : SearchDomain}
    (hnot : newId ∉ seen) (hlow : newDom ≠ .snippets → jsLower newId = newId) :
    ∀ r' ∈ res, ¬(r'.id = newId ∧ r'.domain = newDom) := by
  rintro r' hr' ⟨hid, hdom⟩
  by_cases hd : newDom = .snippets
  · have hmem := (hseen r' hr').1 (by rw [hdom, hd])
    rw [hid] at hmem
    exact hnot hmem
  · have hmem := (hseen r' hr').2 (by rw [hdom]; exact hd)
    rw [hid, hlow hd] at hmem
    exact hnot hmem

theorem prefixLoop_inv (toks : List RTok) (cap : Nat) :
    ∀ (l : List CatalogItem) (res : List SearchResult) (seen : List String),
      (∀ it ∈ l, it.domain ≠ .snippets → jsLower it.id = it.id) →
      NoDupPair res → SeenInv res seen →
      NoDupPair (prefixLoop toks cap l res seen).1 ∧
        SeenInv (prefixLoop toks cap l res seen).1 (prefixLoop toks cap l res seen).2 ∧
        seen ⊆ (prefixLoop toks cap l res seen).2 := by
  intro l
  induction l with
  | nil =>
    intro res seen _ h1 h2
    exact ⟨h1, h2, fun _ h => h⟩
  | cons it rest ih =>
    intro res seen hl h1 h2
    have hltail : ∀ x ∈ rest, x.domain ≠ .snippets → jsLower x.id = x.id :=
      fun x hx => hl x (List.mem_cons_of_mem it hx)
    unfold prefixLoop
    split
    · exact ih res seen hltail h1 h2
    · next hnc =>
      split
      · have hnot : it.id ∉ seen := fun hmem => hnc (contains_iff_mem.mpr hmem)
        have hlow := hl it (List.mem_cons_self it rest)
        have h1' : NoDupPair (res ++ [prefixResult it]) :=
          noDupPair_push h1 (seen_blocks h2 hnot hlow)
        have h2' : SeenInv (res ++ [prefixResult it]) (sInsert seen it.id) := by
          refine seenInv_push (seenInv_mono h2 sInsert_subset) ?_ ?_
          · intro _
            exact mem_sInsert_self
          · intro hd
            show jsLower it.id ∈ sInsert seen it.id
            rw [hlow hd]
            exact mem_sInsert_self
        split
        · exact ⟨h1', h2', fun x hx => sInsert_subset hx⟩
        · obtain ⟨a1, a2, a3⟩ := ih (res ++ [prefixResult it]) (sInsert seen it.id) hltail h1' h2'
          exact ⟨a1, a2, fun x hx => a3 (sInsert_subset hx)⟩
      · exact ih res seen hltail h1 h2

theorem prefixLoop_mem (toks : List RTok) (cap : Nat) :
    ∀ (l : List CatalogItem) (res : List SearchResult) (seen : List String) (r : SearchResult),
      r ∈ (prefixLoop toks cap l res seen).1 →
      r ∈ res ∨ ∃ it, it ∈ l ∧ r = prefixResult it ∧
        (regexTest toks it.id || regexTest toks (jsLower it.name)) = true := by
  intro l
  induction l with
  | nil =>
    intro res seen r hr
    exact Or.inl hr
  | cons it rest ih =>
    intro res seen r hr
    unfold prefixLoop at hr
    split at hr
    · rcases ih res seen r hr with h | ⟨it2, hm, he, ht⟩
      · exact Or.inl h
      · exact Or.inr ⟨it2, List.mem_cons_of_mem it hm, he, ht⟩
    · next hnc =>
      split at hr
      · next htest =>
        split at hr
        · rcases List.mem_append.mp hr with h | h
          · exact Or.inl h
          · exact Or.inr ⟨it, List.mem_cons_self it rest, List.mem_singleton.mp h, htest⟩
        · rcases ih _ _ r hr with h | ⟨it2, hm, he, ht⟩
          · rcases List.mem_append.mp h with h2 | h2
            · exact Or.inl h2
            · exact Or.inr ⟨it, List.mem_cons_self it rest, List.mem_singleton.mp h2, htest⟩
          · exact Or.inr ⟨it2, List.mem_cons_of_mem it hm, he, ht⟩
      · rcases ih res seen r hr with h | ⟨it2, hm, he, ht⟩
        · exact Or.inl h
        · exact Or.inr ⟨it2, List.mem_cons_of_mem it hm, he, ht⟩

theorem prefixLoop_append (toks : List RTok) (cap : Nat) :
    ∀ (l : List CatalogItem) (res : List SearchResult) (seen : List String),
      ∃ ext, (prefixLoop toks cap l res seen).1 = res ++ ext := by
  intro l
  induction l with
  | nil =>
    intro res seen
    exact ⟨[], (List.append_nil res).symm⟩
  | cons it rest ih =>
    intro res seen
    unfold prefixLoop
    split
    · exact ih res seen
    · split
      · split
        · exact ⟨[prefixResult it], rfl⟩
        · obtain ⟨ext, he⟩ := ih (res ++ [prefixResult it]) (sInsert seen it.id)
          exact ⟨[prefixResult it] ++ ext, by rw [he, List.append_assoc]⟩
      · exact ih res seen

theorem kwLoop_inv (items : List CatalogItem) (nTok cap : Nat)
    (hitems : ∀ it ∈ items, it.domain ≠ .snippets → jsLower it.id = it.id) :
    ∀ (l : List (String × Nat)) (res : List SearchResult) (seen : List String),
      NoDupPair res → SeenInv res seen →
      NoDupPair (kwLoop items nTok cap l res seen).1 ∧
        SeenInv (kwLoop items nTok cap l res seen).1 (kwLoop items nTok cap l res seen).2 ∧
        seen ⊆ (kwLoop items nTok cap l res seen).2 := by
  intro l
  induction l with
  | nil =>
    intro res seen h1 h2
    exact ⟨h1, h2, fun _ h => h⟩
  | cons e rest ih =>
    obtain ⟨itemId, m⟩ := e
    intro res seen h1 h2
    unfold kwLoop
    split
    · exact ih res seen h1 h2
    · next hnc =>
      cases hfind : items.find? (fun i => i.id == itemId) with
      | none =>
        simp only [hfind]
        exact ih res seen h1 h2
      | some it =>
        simp only [hfind]
        have hit : it ∈ items := List.mem_of_find?_eq_some hfind
        have hid : it.id = itemId := by simpa using List.find?_some hfind
        have hnot : itemId ∉ seen := fun hmem => hnc (contains_iff_mem.mpr hmem)
        have hlow : it.domain ≠ .snippets → jsLower it.id = it.id := hitems it hit
        have hblock : ∀ r' ∈ res,
            ¬(r'.id = (keywordResult it (kwScore m nTok)).id ∧
              r'.domain = (keywordResult it (kwScore m nTok)).domain) := by
          have := @seen_blocks res seen h2 it.id it.domain
            (by rw [hid]; exact hnot) hlow
          exact this
        have h1' : NoDupPair (res ++ [keywordResult it (kwScore m nTok)]) :=
          noDupPair_push h1 hblock
        have h2' : SeenInv (res ++ [keywordResult it (kwScore m nTok)])
            (sInsert seen itemId) := by
          refine seenInv_push (seenInv_mono h2 sInsert_subset) ?_ ?_
          · intro _
            show it.id ∈ sInsert seen itemId
            rw [hid]
            exact mem_sInsert_self
          · intro hd
            show jsLower it.id ∈ sInsert seen itemId
            rw [hlow hd, hid]
            exact mem_sInsert_self
        split
        · exact ⟨h1', h2', fun x hx => sInsert_subset hx⟩
        · obtain ⟨a1, a2, a3⟩ := ih _ _ h1' h2'
          exact ⟨a1, a2, fun x hx => a3 (sInsert_subset hx)⟩

theorem kwLoop_mem (items : List CatalogItem) (nTok cap : Nat) :
    ∀ (l : List (String × Nat)) (res : List SearchResult) (seen : List String) (r : SearchResult),
      r ∈ (kwLoop items nTok cap l res seen).1 →
      r ∈ res ∨ ∃ it m, it ∈ items ∧ r = keywordResult it (kwScore m nTok) := by
  intro l
  induction l with
  | nil =>
    intro res seen r hr
    exact Or.inl hr
  | cons e rest ih =>
    obtain ⟨itemId, m⟩ := e
    intro res seen r hr
    unfold kwLoop at hr
    split at hr
    · exact ih res seen r hr
    · cases hfind : items.find? (fun i => i.id == itemId) with
      | none =>
        simp only [hfind] at hr
        exact ih res seen r hr
      | some it =>
        simp only [hfind] at hr
        have hit : it ∈ items := List.mem_of_find?_eq_some hfind
        split at hr
        · rcases List.mem_append.mp hr with h | h
          · exact Or.inl h
          · exact Or.inr ⟨it, m, hit, List.mem_singleton.mp h⟩
        · rcases ih _ _ r hr with h | h
          · rcases List.mem_append.mp h with h2 | h2
            · exact Or.inl h2
            · exact Or.inr ⟨it, m, hit, List.mem_singleton.mp h2⟩
          · exact Or.inr h

theorem kwLoop_append (items : List CatalogItem) (nTok cap : Nat) :
    ∀ (l : List (String × Nat)) (res : List SearchResult) (seen : List String),
      ∃ ext, (kwLoop items nTok cap l res seen).1 = res ++ ext := by
  intro l
  induction l with
  | nil =>
    intro res seen
    exact ⟨[], (List.append_nil res).symm⟩
  | cons e rest ih =>
    obtain ⟨itemId, m⟩ := e
    intro res seen
    unfold kwLoop
    split
    · exact ih res seen
    · cases hfind : items.find? (fun i => i.id == itemId) with
      | none =>
        simp only [hfind]
        exact ih res seen
      | some it =>
        simp only [hfind]
        split
        · exact ⟨[keywordResult it (kwScore m nTok)], rfl⟩
        · obtain ⟨ext, he⟩ := ih (res ++ [keywordResult it (kwScore m nTok)]) (sInsert seen itemId)
          exact ⟨[keywordResult it (kwScore m nTok)] ++ ext, by rw [he, List.append_assoc]⟩

theorem fuzzyLoop_inv (norm : String) (cap : Nat) :
    ∀ (l : List CatalogItem) (res : List SearchResult) (seen : List String),
      (∀ it ∈ l, it.domain ≠ .snippets → jsLower it.id = it.id) →
      NoDupPair res → SeenInv res seen →
      NoDupPair (fuzzyLoop norm cap l res seen).1 ∧
        SeenInv (fuzzyLoop norm cap l res seen).1 (fuzzyLoop norm cap l res seen).2 ∧
        seen ⊆ (fuzzyLoop norm cap l res seen).2 := by
  intro l
  induction l with
  | nil =>
    intro res seen _ h1 h2
    exact ⟨h1, h2, fun _ h => h⟩
  | cons it rest ih =>
    intro res seen hl h1 h2
    have hltail : ∀ x ∈ rest, x.domain ≠ .snippets → jsLower x.id = x.id :=
      fun x hx => hl x (List.mem_cons_of_mem it hx)
    unfold fuzzyLoop
    split
    · exact ih res seen hltail h1 h2
    · next hnc =>
      split
      · have hnot : it.id ∉ seen := fun hmem => hnc (contains_iff_mem.mpr hmem)
        have hlow := hl it (List.mem_cons_self it rest)
        have h1' : NoDupPair (res ++
            [fuzzyResult it (calculateSimilarity norm it.id (jsLower it.name) it.keywords)]) :=
          noDupPair_push h1 (seen_blocks h2 hnot hlow)
        have h2' : SeenInv (res ++
            [fuzzyResult it (calculateSimilarity norm it.id (jsLower it.name) it.keywords)])
            (sInsert seen it.id) := by
          refine seenInv_push (seenInv_mono h2 sInsert_subset) ?_ ?_
          · intro _
            exact mem_sInsert_self
          · intro hd
            show jsLower it.id ∈ sInsert seen it.id
            rw [hlow hd]
            exact mem_sInsert_self
        split
        · exact ⟨h1', h2', fun x hx => sInsert_subset hx⟩
        · obtain ⟨a1, a2, a3⟩ := ih _ _ hltail h1' h2'
          exact ⟨a1, a2, fun x hx => a3 (sInsert_subset hx)⟩
      · exact ih res seen hltail h1 h2

theorem fuzzyLoop_mem (norm : String) (cap : Nat) :
    ∀ (l : List CatalogItem) (res : List SearchResult) (seen : List String) (r : SearchResult),
      r ∈ (fuzzyLoop norm cap l res seen).1 →
      r ∈ res ∨ ∃ it, it ∈ l ∧
        r = fuzzyResult it (calculateSimilarity norm it.id (jsLower it.name) it.keywords) ∧
        mkRat 4 10 ≤ calculateSimilarity norm it.id (jsLower it.name) it.keywords := by
  intro l
  induction l with
  | nil =>
    intro res seen r hr
    exact Or.inl hr
  | cons it rest ih =>
    intro res seen r hr
    unfold fuzzyLoop at hr
    split at hr
    · rcases ih res seen r hr with h | ⟨it2, hm, he, ht⟩
      · exact Or.inl h
      · exact Or.inr ⟨it2, List.mem_cons_of_mem it hm, he, ht⟩
    · split at hr
      · next hth =>
        split at hr
        · rcases List.mem_append.mp hr with h | h
          · exact Or.inl h
          · exact Or.inr ⟨it, List.mem_cons_self it rest, List.mem_singleton.mp h, hth⟩
        · rcases ih _ _ r hr with h | ⟨it2, hm, he, ht⟩
          · rcases List.mem_append.mp h with h2 | h2
            · exact Or.inl h2
            · exact Or.inr ⟨it, List.mem_cons_self it rest, List.mem_singleton.mp h2, hth⟩
          · exact Or.inr ⟨it2, List.mem_cons_of_mem it hm, he, ht⟩
      · rcases ih res seen r hr with h | ⟨it2, hm, he, ht⟩
        · exact Or.inl h
        · exact Or.inr ⟨it2, List.mem_cons_of_mem it hm, he, ht⟩

theorem fuzzyLoop_append (norm : String) (cap : Nat) :
    ∀ (l : List CatalogItem) (res : List SearchResult) (seen : List String),
      ∃ ext, (fuzzyLoop norm cap l res seen).1 = res ++ ext := by
  intro l
  induction l with
  | nil =>
    intro res seen
    exact ⟨[], (List.append_nil res).symm⟩
  | cons it rest ih =>
    intro res seen
    unfold fuzzyLoop
    split
    · exact ih res seen
    · split
      · split
        · exact ⟨[fuzzyResult it (calculateSimilarity norm it.id (jsLower it.name) it.keywords)], rfl⟩
        · obtain ⟨ext, he⟩ := ih
            (res ++ [fuzzyResult it (calculateSimilarity norm it.id (jsLower it.name) it.keywords)])
            (sInsert seen it.id)
          exact ⟨[fuzzyResult it (calculateSimilarity norm it.id (jsLower it.name) it.keywords)] ++ ext,
            by rw [he, List.append_assoc]⟩
      · exact ih res seen

theorem ladder_eq (c1 c2 c3 c4 : Bool) :
    (let s0 : ℚ := 0
     let s1 := if c1 then max s0 (mkRat 8 10) else s0
     let s2 := if c2 then max s1 (mkRat 6 10) else s1
     let s3 := if c3 then max s2 (mkRat 5 10) else s2
     let s4 := if c4 then max s3 (mkRat 4 10) else s3
     s4) =
      max (max (max (if c1 then mkRat 8 10 else 0) (if c2 then mkRat 6 10 else 0))
        (if c3 then mkRat 5 10 else 0)) (if c4 then mkRat 4 10 else 0) := by
  cases c1 <;> cases c2 <;> cases c3 <;> cases c4 <;> decide

theorem ladder_bounds (c1 c2 c3 c4 : Bool) :
    0 ≤ (let s0 : ℚ := 0
         let s1 := if c1 then max s0 (mkRat 8 10) else s0
         let s2 := if c2 then max s1 (mkRat 6 10) else s1
         let s3 := if c3 then max s2 (mkRat 5 10) else s2
         let s4 := if c4 then max s3 (mkRat 4 10) else s3
         s4) ∧
      (let s0 : ℚ := 0
       let s1 := if c1 then max s0 (mkRat 8 10) else s0
       let s2 := if c2 then max s1 (mkRat 6 10) else s1
       let s3 := if c3 then max s2 (mkRat 5 10) else s2
       let s4 := if c4 then max s3 (mkRat 4 10) else s3
       s4) ≤ 1 := by
  cases c1 <;> cases c2 <;> cases c3 <;> cases c4 <;> exact ⟨by decide, by decide⟩

/-- The similarity score is the maximum applicable rule value (never an
additive combination): 1.0 on a terminal equality, otherwise the
maximum over the prefix, substring, segment and keyword rules, each
contributing its value when its condition holds and 0 otherwise. -/
theorem calcSim_max_form (q i n : String) (kws : List String) :
    calculateSimilarity q i n kws =
      if i = q ∨ n = q then 1
      else
        max (max (max (if strStarts i q || strStarts n q then mkRat 8 10 else 0)
          (if strIncludes i q || strIncludes n q then mkRat 6 10 else 0))
          (if (splitDot q).any (fun qp => (splitDot i).any (fun ip => strIncludes ip qp))
            then mkRat 5 10 else 0))
          (if (extractKeywords [q]).any (fun qw => kws.contains qw) then mkRat 4 10 else 0) := by
  unfold calculateSimilarity
  by_cases h0 : (i == q || n == q) = true
  · have h0p : i = q ∨ n = q := by simpa using h0
    rw [if_pos h0, if_pos h0p]
  · have h0p : ¬(i = q ∨ n = q) := by simpa using h0
    rw [if_neg h0, if_neg h0p]
    exact ladder_eq _ _ _ _

theorem calcSim_bounds (q i n : String) (kws : List String) :
    0 ≤ calculateSimilarity q i n kws ∧ calculateSimilarity q i n kws ≤ 1 := by
  unfold calculateSimilarity
  split
  · exact ⟨by norm_num, le_refl 1⟩
  · exact ladder_bounds _ _ _ _

theorem kwScore_bounds (m nTok : Nat) : 0 ≤ kwScore m nTok ∧ kwScore m nTok ≤ 1 := by
  unfold kwScore
  rw [qadd_eq, qmul_eq, qdiv_eq]
  constructor
  · apply le_min
    · exact mkRat_nonneg_of_nat 8 10
    · exact add_nonneg (mkRat_nonneg_of_nat 3 10)
        (mul_nonneg (div_nonneg (mkRat_nonneg_of_nat m 1) (mkRat_nonneg_of_nat nTok 1))
          (mkRat_nonneg_of_nat 5 10))
  · refine le_trans (min_le_left _ _) ?_
    rw [Rat.mkRat_eq_div]
    norm_num

theorem exactStage_mem_spec {dta : HISEData} {ws : Bool} {norm : String} {d : SearchDomain}
    (hn : jsLower norm = norm) :
    ∀ r ∈ (exactStage (buildState dta ws) norm d).1,
      r.score = 1 ∧ r.matchType = "exact" ∧ jsLower r.id = norm ∧
        (r.domain = .snippets → r.id = norm) := by
  intro r hr
  rw [exactStage_eq] at hr
  simp only [List.mem_append, Option.mem_toList, Option.mem_def] at hr
  rcases hr with ((h | h) | h) | h
  · obtain ⟨h1, h2, h3, h4⟩ := exactHitApi_spec h
    exact ⟨h1, h2, h3, fun hd => by rw [h4] at hd; cases hd⟩
  · obtain ⟨h1, h2, h3, h4⟩ := exactHitUi_spec h
    exact ⟨h1, h2, h3, fun hd => by rw [h4] at hd; cases hd⟩
  · obtain ⟨h1, h2, h3, h4⟩ := exactHitMod_spec h
    exact ⟨h1, h2, h3, fun hd => by rw [h4] at hd; cases hd⟩
  · obtain ⟨h1, h2, h3, h4⟩ := exactHitSnip_spec h
    exact ⟨h1, h2, by rw [h3]; exact hn, fun _ => h3⟩

theorem exactStage_resultOk {dta : HISEData} {ws : Bool} {norm : String} {d : SearchDomain}
    (hn : jsLower norm = norm) :
    ∀ r ∈ (exactStage (buildState dta ws) norm d).1, ResultOk r := by
  intro r hr
  obtain ⟨h1, h2, _, _⟩ := exactStage_mem_spec hn r hr
  exact ⟨by rw [h1]; norm_num, by rw [h1], Or.inl h2⟩

theorem exactStage_seenInv {dta : HISEData} {ws : Bool} {norm : String} {d : SearchDomain}
    (hn : jsLower norm = norm) :
    SeenInv (exactStage (buildState dta ws) norm d).1
      (exactStage (buildState dta ws) norm d).2 := by
  intro r hr
  obtain ⟨_, _, h3, h4⟩ := exactStage_mem_spec hn r hr
  rw [exactStage_eq] at hr ⊢
  simp only at hr ⊢
  split
  · next hall =>
    obtain ⟨ha, hu, hm, hs⟩ := hall
    rw [ha, hu, hm, hs] at hr
    cases hr
  · refine ⟨fun hd => ?_, fun _ => ?_⟩
    · rw [h4 hd]
      exact List.mem_singleton.mpr rfl
    · rw [h3]
      exact List.mem_singleton.mpr rfl

theorem exactStage_nodup {dta : HISEData} {ws : Bool} {norm : String} {d : SearchDomain} :
    NoDupPair (exactStage (buildState dta ws) norm d).1 := by
  rw [exactStage_eq]
  simp only
  refine List.Pairwise.imp ?_ (pairwise_four_blocks
    (fun r h => (exactHitApi_spec h).2.2.2) (fun r h => (exactHitUi_spec h).2.2.2)
    (fun r h => (exactHitMod_spec h).2.2.2) (fun r h => (exactHitSnip_spec h).2.2.2))
  intro a b hdom hpair
  exact hdom hpair.2

theorem sortedDesc_of_const {l : List SearchResult} (h : ∀ r ∈ l, r.score = 1) :
    SortedDesc SearchResult.score l := by
  induction l with
  | nil => exact List.Pairwise.nil
  | cons x xs ih =>
    refine List.Pairwise.cons ?_ (ih (fun r hr => h r (List.mem_cons_of_mem x hr)))
    intro b hb
    rw [h x (List.mem_cons_self x xs), h b (List.mem_cons_of_mem x hb)]

theorem prefixResult_ok (it : CatalogItem) : ResultOk (prefixResult it) := by
  refine ⟨?_, ?_, Or.inr (Or.inl rfl)⟩
  · exact mkRat_nonneg_of_nat 9 10
  · show mkRat 9 10 ≤ 1
    rw [Rat.mkRat_eq_div]
    norm_num

theorem keywordResult_ok (it : CatalogItem) (m nTok : Nat) :
    ResultOk (keywordResult it (kwScore m nTok)) :=
  ⟨(kwScore_bounds m nTok).1, (kwScore_bounds m nTok).2, Or.inr (Or.inr (Or.inl rfl))⟩

theorem fuzzyResult_ok (it : CatalogItem) (norm : String) :
    ResultOk (fuzzyResult it (calculateSimilarity norm it.id (jsLower it.name) it.keywords)) :=
  ⟨(calcSim_bounds _ _ _ _).1, (calcSim_bounds _ _ _ _).2, Or.inr (Or.inr (Or.inr rfl))⟩

theorem searchTail_ok_spec {st : IndexState} {norm : String} {items : List CatalogItem}
    {acc : List SearchResult × List String} {lim : Nat} {rs : List SearchResult}
    (hacc : ∀ r ∈ acc.1, ResultOk r)
    (hok : searchTail st norm items acc lim = .ok rs) :
    rs.length ≤ lim ∧ SortedDesc SearchResult.score rs ∧ ∀ r ∈ rs, ResultOk r := by
  have hkw : ∀ r ∈ (kwStage st norm items acc lim).1, ResultOk r := by
    intro r hr
    rcases kwLoop_mem _ _ _ _ _ _ r hr with h | ⟨it, m, _, rfl⟩
    · exact hacc r h
    · exact keywordResult_ok it m _
  have hfz : ∀ r ∈ (fuzzyStage norm items (kwStage st norm items acc lim) lim).1, ResultOk r := by
    intro r hr
    rcases fuzzyLoop_mem _ _ _ _ _ r hr with h | ⟨it, _, rfl, _⟩
    · exact hkw r h
    · exact fuzzyResult_ok it norm
  unfold searchTail at hok
  split at hok
  · obtain rfl := (Except.ok.inj hok).symm
    refine ⟨by rw [List.length_take]; exact min_le_left _ _,
      sortedDesc_take _ _ (insSortByKey_sorted _ _), ?_⟩
    intro r hr
    exact hacc r ((mem_insSortByKey _).mp (List.take_subset _ _ hr))
  · split at hok
    · obtain rfl := (Except.ok.inj hok).symm
      refine ⟨by rw [List.length_take]; exact min_le_left _ _,
        sortedDesc_take _ _ (insSortByKey_sorted _ _), ?_⟩
      intro r hr
      exact hkw r ((mem_insSortByKey _).mp (List.take_subset _ _ hr))
    · obtain rfl := (Except.ok.inj hok).symm
      refine ⟨by rw [List.length_take]; exact min_le_left _ _,
        sortedDesc_take _ _ (insSortByKey_sorted _ _), ?_⟩
      intro r hr
      exact hfz r ((mem_insSortByKey _).mp (List.take_subset _ _ hr))

theorem searchIn_ok_spec {dta : HISEData} {ws : Bool} {q : String} {d : SearchDomain}
    {lim : Nat} {rs : List SearchResult}
    (hok : searchIn (buildState dta ws) q d lim = .ok rs) :
    rs.length ≤ lim ∧ SortedDesc SearchResult.score rs ∧ ∀ r ∈ rs, ResultOk r := by
  have hn : jsLower (normalizeQuery q) = normalizeQuery q := jsLower_normalizeQuery q
  have hex : ∀ r ∈ (exactStage (buildState dta ws) (normalizeQuery q) d).1, ResultOk r :=
    exactStage_resultOk hn
  unfold searchIn at hok
  split at hok
  · obtain rfl := (Except.ok.inj hok).symm
    refine ⟨by rw [List.length_take]; exact min_le_left _ _, ?_, ?_⟩
    · exact sortedDesc_take _ _ (sortedDesc_of_const
        (fun r hr => (exactStage_mem_spec hn r hr).1))
    · intro r hr
      exact hex r (List.take_subset _ _ hr)
  · split at hok
    · split at hok
      · exact Except.noConfusion hok
      · refine searchTail_ok_spec ?_ hok
        intro r hr
        rcases prefixLoop_mem _ _ _ _ _ r hr with h | ⟨it, _, rfl, _⟩
        · exact hex r h
        · exact prefixResult_ok it
    · exact searchTail_ok_spec hex hok

theorem noDupPair_sortTake {l : List SearchResult} (n : Nat) (h : NoDupPair l) :
    NoDupPair ((insSortByKey SearchResult.score l).take n) := by
  refine List.Pairwise.sublist (List.take_sublist _ _)
    (((insSortByKey_perm SearchResult.score l).pairwise_iff ?_).mpr h)
  rintro a b hab ⟨h1, h2⟩
  exact hab ⟨h1.symm, h2.symm⟩

theorem searchTail_ok_nodup {st : IndexState} {norm : String} {items : List CatalogItem}
    {acc : List SearchResult × List String} {lim : Nat} {rs : List SearchResult}
    (hitems : ∀ it ∈ items, it.domain ≠ .snippets → jsLower it.id = it.id)
    (h1 : NoDupPair acc.1) (h2 : SeenInv acc.1 acc.2)
    (hok : searchTail st norm items acc lim = .ok rs) : NoDupPair rs := by
  obtain ⟨k1, k2, _⟩ := kwLoop_inv items (extractKeywords [norm]).length (lim * 3) hitems
    (kwMatches st.keywordIndex (extractKeywords [norm])) acc.1 acc.2 h1 h2
  obtain ⟨f1, _, _⟩ := fuzzyLoop_inv norm (lim * 5) items
    (kwStage st norm items acc lim).1 (kwStage st norm items acc lim).2 hitems k1 k2
  unfold searchTail at hok
  split at hok
  · obtain rfl := (Except.ok.inj hok).symm
    exact noDupPair_sortTake _ h1
  · split at hok
    · obtain rfl := (Except.ok.inj hok).symm
      exact noDupPair_sortTake _ k1
    · obtain rfl := (Except.ok.inj hok).symm
      exact noDupPair_sortTake _ f1

theorem searchItems_subset (st : IndexState) (d : SearchDomain) :
    searchItems st d ⊆ st.allItems := by
  unfold searchItems
  split
  · exact fun x h => h
  · exact fun x hx => List.mem_of_mem_filter hx

theorem searchIn_ok_nodup {dta : HISEData} {ws : Bool} {q : String} {d : SearchDomain}
    {lim : Nat} {rs : List SearchResult}
    (hok : searchIn (buildState dta ws) q d lim = .ok rs) : NoDupPair rs := by
  have hn : jsLower (normalizeQuery q) = normalizeQuery q := jsLower_normalizeQuery q
  have hitems : ∀ it ∈ searchItems (buildState dta ws) d,
      it.domain ≠ .snippets → jsLower it.id = it.id :=
    fun it hit => allItems_id_lower it (searchItems_subset _ _ hit)
  have hexn : NoDupPair (exactStage (buildState dta ws) (normalizeQuery q) d).1 :=
    exactStage_nodup
  have hexs : SeenInv (exactStage (buildState dta ws) (normalizeQuery q) d).1
      (exactStage (buildState dta ws) (normalizeQuery q) d).2 := exactStage_seenInv hn
  unfold searchIn at hok
  split at hok
  · obtain rfl := (Except.ok.inj hok).symm
    exact List.Pairwise.sublist (List.take_sublist _ _) hexn
  · split at hok
    · split at hok
      · exact Except.noConfusion hok
      · next toks _ =>
        obtain ⟨p1, p2, _⟩ := prefixLoop_inv toks (lim * 2) (searchItems (buildState dta ws) d)
          (exactStage (buildState dta ws) (normalizeQuery q) d).1
          (exactStage (buildState dta ws) (normalizeQuery q) d).2 hitems hexn hexs
        exact searchTail_ok_nodup hitems p1 p2 hok
    · exact searchTail_ok_nodup hitems hexn hexs hok

theorem head_take {α : Type} {l : List α} {n : Nat} (h : 1 ≤ n) :
    (l.take n).head? = l.head? := by
  cases l with
  | nil => simp
  | cons x xs =>
    cases n with
    | zero => omega
    | succ m => rfl

theorem insSort_head_max {x : SearchResult} {t : List SearchResult}
    (hall : ∀ y ∈ t, SearchResult.score y ≤ SearchResult.score x) :
    insSortByKey SearchResult.score (x :: t) = x :: insSortByKey SearchResult.score t := by
  show insertByKey _ x (insSortByKey _ t) = _
  refine insertByKey_eq_cons _ ?_
  intro y hy
  exact not_lt.mpr (hall y ((mem_insSortByKey _).mp hy))

theorem searchTail_head_exact {st : IndexState} {norm : String} {items : List CatalogItem}
    {x : SearchResult} {t : List SearchResult} {acc : List SearchResult × List String}
    {lim : Nat} (hacc1 : acc.1 = x :: t) (hx : x.score = 1)
    (hall : ∀ r ∈ acc.1, ResultOk r) (hlim : 1 ≤ lim) :
    ∃ rs, searchTail st norm items acc lim = .ok rs ∧ rs.head? = some x := by
  have hkw : ∀ r ∈ (kwStage st norm items acc lim).1, ResultOk r := by
    intro r hr
    rcases kwLoop_mem _ _ _ _ _ _ r hr with h | ⟨it, m, _, rfl⟩
    · exact hall r h
    · exact keywordResult_ok it m _
  have hfz : ∀ r ∈ (fuzzyStage norm items (kwStage st norm items acc lim) lim).1, ResultOk r := by
    intro r hr
    rcases fuzzyLoop_mem _ _ _ _ _ r hr with h | ⟨it, _, rfl, _⟩
    · exact hkw r h
    · exact fuzzyResult_ok it norm
  obtain ⟨ek, hek⟩ : ∃ ext, (kwStage st norm items acc lim).1 = acc.1 ++ ext :=
    kwLoop_append _ _ _ _ _ _
  obtain ⟨ef, hef⟩ : ∃ ext, (fuzzyStage norm items (kwStage st norm items acc lim) lim).1 =
      (kwStage st norm items acc lim).1 ++ ext := fuzzyLoop_append _ _ _ _ _
  unfold searchTail
  split
  · refine ⟨_, rfl, ?_⟩
    rw [hacc1, insSort_head_max ?_, head_take hlim]
    · rfl
    · intro y hy
      have := (hall y (by rw [hacc1]; exact List.mem_cons_of_mem x hy)).2.1
      rw [hx]
      exact this
  · split
    · refine ⟨_, rfl, ?_⟩
      rw [hek, hacc1, List.cons_append, insSort_head_max ?_, head_take hlim]
      · rfl
      · intro y hy
        have hy2 : y ∈ (kwStage st norm items acc lim).1 := by
          rw [hek, hacc1, List.cons_append]
          exact List.mem_cons_of_mem x hy
        rw [hx]
        exact (hkw y hy2).2.1
    · refine ⟨_, rfl, ?_⟩
      rw [hef, hek, hacc1, List.cons_append, List.cons_append,
        insSort_head_max ?_, head_take hlim]
      · rfl
      · intro y hy
        have hy2 : y ∈ (fuzzyStage norm items (kwStage st norm items acc lim) lim).1 := by
          rw [hef, hek, hacc1, List.cons_append, List.cons_append]
          exact List.mem_cons_of_mem x hy
        rw [hx]
        exact (hfz y hy2).2.1

theorem searchIn_head_exact_ok {dta : HISEData} {ws : Bool} {q : String} {d : SearchDomain}
    {lim : Nat} {rs : List SearchResult}
    (hne : (exactStage (buildState dta ws) (normalizeQuery q) d).1 ≠ [])
    (hlim : 1 ≤ lim)
    (hok : searchIn (buildState dta ws) q d lim = .ok rs) :
    ∃ r, rs.head? = some r ∧
      r.score = 1 ∧ r.matchType = "exact" ∧ jsLower r.id = normalizeQuery q := by
  have hn : jsLower (normalizeQuery q) = normalizeQuery q := jsLower_normalizeQuery q
  cases hex : (exactStage (buildState dta ws) (normalizeQuery q) d).1 with
  | nil => exact absurd hex hne
  | cons x t =>
    have hx_mem : x ∈ (exactStage (buildState dta ws) (normalizeQuery q) d).1 := by
      rw [hex]
      exact List.mem_cons_self x t
    obtain ⟨hx1, hx2, hx3, _⟩ := exactStage_mem_spec hn x hx_mem
    have hall : ∀ r ∈ (exactStage (buildState dta ws) (normalizeQuery q) d).1, ResultOk r :=
      exactStage_resultOk hn
    unfold searchIn at hok
    split at hok
    · obtain rfl := Except.ok.inj hok
      refine ⟨x, ?_, hx1, hx2, hx3⟩
      rw [hex, head_take hlim]
      rfl
    · split at hok
      · cases hc : compileWildcard (wildcardPattern (normalizeQuery q)) with
        | none =>
          simp only [hc] at hok
          exact Except.noConfusion hok
        | some toks =>
          simp only [hc] at hok
          obtain ⟨ep, hep⟩ := prefixLoop_append toks (lim * 2)
            (searchItems (buildState dta ws) d)
            (exactStage (buildState dta ws) (normalizeQuery q) d).1
            (exactStage (buildState dta ws) (normalizeQuery q) d).2
          have hacc1 : (prefixLoop toks (lim * 2) (searchItems (buildState dta ws) d)
              (exactStage (buildState dta ws) (normalizeQuery q) d).1
              (exactStage (buildState dta ws) (normalizeQuery q) d).2).1 = x :: (t ++ ep) := by
            rw [hep, hex, List.cons_append]
          have hallp : ∀ r ∈ (prefixLoop toks (lim * 2) (searchItems (buildState dta ws) d)
              (exactStage (buildState dta ws) (normalizeQuery q) d).1
              (exactStage (buildState dta ws) (normalizeQuery q) d).2).1, ResultOk r := by
            intro r hr
            rcases prefixLoop_mem _ _ _ _ _ r hr with h | ⟨it, _, rfl, _⟩
            · exact hall r h
            · exact prefixResult_ok it
          obtain ⟨rs2, hrs2, hhd⟩ := searchTail_head_exact hacc1 hx1 hallp hlim
          obtain rfl : rs2 = rs := Except.ok.inj (hrs2.symm.trans hok)
          exact ⟨x, hhd, hx1, hx2, hx3⟩
      · obtain ⟨rs2, hrs2, hhd⟩ := searchTail_head_exact hex hx1 hall hlim
        obtain rfl : rs2 = rs := Except.ok.inj (hrs2.symm.trans hok)
        exact ⟨x, hhd, hx1, hx2, hx3⟩

theorem exactStage_ne_nil_of_key {dta : HISEData} {ws : Bool} {key : String}
    (hkey : (mapGet (buildState dta ws).apiMethodIndex key).isSome = true ∨
            (mapGet (buildState dta ws).propertyIndex key).isSome = true ∨
            (mapGet (buildState dta ws).parameterIndex key).isSome = true) :
    (exactStage (buildState dta ws) key .all).1 ≠ [] := by
  rcases hkey with h | h | h
  · obtain ⟨m, hm⟩ := Option.isSome_iff_exists.mp h
    have hhit : exactHitApi (buildState dta ws) key .all = some (exactApiResult m) := by
      unfold exactHitApi
      rw [if_pos (Or.inl rfl), hm]
      rfl
    rw [exactStage_eq]
    simp [hhit]
  · obtain ⟨p, hp⟩ := Option.isSome_iff_exists.mp h
    have hhit : exactHitUi (buildState dta ws) key .all = some (exactUiResult p) := by
      unfold exactHitUi
      rw [if_pos (Or.inl rfl), hp]
      rfl
    rw [exactStage_eq]
    simp [hhit]
  · obtain ⟨p, hp⟩ := Option.isSome_iff_exists.mp h
    have hhit : exactHitMod (buildState dta ws) key .all = some (exactModResult p) := by
      unfold exactHitMod
      rw [if_pos (Or.inl rfl), hp]
      rfl
    rw [exactStage_eq]
    simp [hhit]

theorem insSortByKey_eq_self_of_const {α : Type} (f : α → ℚ) (c : ℚ) :
    ∀ {l : List α}, (∀ a ∈ l, f a = c) → insSortByKey f l = l := by
  intro l
  induction l with
  | nil => intro _; rfl
  | cons x xs ih =>
    intro h
    rw [insSortByKey, ih (fun a ha => h a (List.mem_cons_of_mem _ ha))]
    cases xs with
    | nil => rfl
    | cons y ys =>
      rw [insertByKey, if_neg]
      rw [h x (List.mem_cons_self _ _), h y (List.mem_cons_of_mem _ (List.mem_cons_self _ _))]
      exact lt_irrefl c

theorem searchTail_ok_basis {st : IndexState} {norm : String} {items : List CatalogItem}
    {acc : List SearchResult × List String} {lim : Nat} {rs : List SearchResult}
    (hok : searchTail st norm items acc lim = .ok rs) :
    rs = (insSortByKey SearchResult.score (searchBasis st norm items acc lim)).take lim := by
  unfold searchTail at hok
  unfold searchBasis
  split at hok
  · next h =>
    rw [if_pos h]
    exact (Except.ok.inj hok).symm
  · next h =>
    rw [if_neg h]
    split at hok
    · next h2 =>
      rw [if_pos h2]
      exact (Except.ok.inj hok).symm
    · next h2 =>
      rw [if_neg h2]
      exact (Except.ok.inj hok).symm

theorem searchIn_ok_basis {dta : HISEData} {ws : Bool} {q : String} {d : SearchDomain}
    {lim : Nat} {rs : List SearchResult}
    (hok : searchIn (buildState dta ws) q d lim = .ok rs) :
    rs = (insSortByKey SearchResult.score
      (searchInBasis (buildState dta ws) q d lim)).take lim := by
  unfold searchIn at hok
  unfold searchInBasis
  split at hok
  · next h =>
    rw [if_pos h,
      insSortByKey_eq_self_of_const SearchResult.score 1
        (fun r hr => (exactStage_mem_spec (jsLower_normalizeQuery q) r hr).1)]
    exact (Except.ok.inj hok).symm
  · next h =>
    rw [if_neg h]
    split at hok
    · next hstar =>
      rw [if_pos hstar]
      cases hcw : compileWildcard (wildcardPattern (normalizeQuery q)) with
      | none =>
        simp only [hcw] at hok
        exact Except.noConfusion hok
      | some toks =>
        simp only [hcw] at hok
        exact searchTail_ok_basis hok
    · next hstar =>
      rw [if_neg hstar]
      exact searchTail_ok_basis hok

/-- C1: for every corpus, snippet-load state, query, domain and limit in
`[1, 50]`, a successful `search` returns at most `limit` results, sorted
in non-increasing score order, with every score in `[0, 1]` and every
matchType one of `exact`, `prefix`, `keyword`, `fuzzy`; and ties keep
first-seen/insertion order: the returned list is the stable
score-descending sort (truncated to `limit`) of the `results` array in
push order (`searchBasisData`), so for every score value the results
carrying that score appear as a prefix of — hence in the order of — the
first-seen occurrences of that score.  (A query whose wildcard pattern
fails to compile makes `search` raise instead of returning a list —
that divergence is covered separately under the error-handling
claim.) -/
theorem search_contract (dta : HISEData) (snipsLoaded : Bool) (q : String) (d : SearchDomain)
    (lim : Nat) (hlo : 1 ≤ lim) (hhi : lim ≤ 50) (rs : List SearchResult)
    (hok : searchData dta snipsLoaded q d lim = .ok rs) :
    rs.length ≤ lim ∧
      rs.Pairwise (fun a b => b.score ≤ a.score) ∧
      (∀ r ∈ rs, 0 ≤ r.score ∧ r.score ≤ 1 ∧
        (r.matchType = "exact" ∨ r.matchType = "prefix" ∨
         r.matchType = "keyword" ∨ r.matchType = "fuzzy")) ∧
      rs = (insSortByKey SearchResult.score
        (searchBasisData dta snipsLoaded q d lim)).take lim ∧
      ∀ s : ℚ, rs.filter (fun r => decide (r.score = s)) <+:
        (searchBasisData dta snipsLoaded q d lim).filter (fun r => decide (r.score = s)) := by
  unfold searchData at hok
  obtain ⟨h1, h2, h3⟩ := searchIn_ok_spec hok
  have hbasis := searchIn_ok_basis hok
  refine ⟨h1, h2, h3, hbasis, ?_⟩
  intro s
  rw [hbasis]
  unfold searchBasisData
  rw [← insSortByKey_filter SearchResult.score s
    (searchInBasis (buildState dta (snipsLoaded || d == .all || d == .snippets)) q d lim)]
  exact (List.take_prefix lim _).filter _

/-- Concrete run backing `search_contract`: a one-method corpus, the
query `Synth.addNoteOn()` and limit 1. -/
theorem search_contract_witness :
    (1 ≤ 1 ∧ (1 : Nat) ≤ 50) ∧
    ([exactApiResult synthMethod].length ≤ 1 ∧
      [exactApiResult synthMethod].Pairwise (fun a b => b.score ≤ a.score) ∧
      (∀ r ∈ [exactApiResult synthMethod], 0 ≤ r.score ∧ r.score ≤ 1 ∧
        (r.matchType = "exact" ∨ r.matchType = "prefix" ∨
         r.matchType = "keyword" ∨ r.matchType = "fuzzy")) ∧
      [exactApiResult synthMethod] = (insSortByKey SearchResult.score
        (searchBasisData corpusSynth false "Synth.addNoteOn()" .all 1)).take 1 ∧
      ∀ s : ℚ, [exactApiResult synthMethod].filter (fun r => decide (r.score = s)) <+:
        (searchBasisData corpusSynth false "Synth.addNoteOn()" .all 1).filter
          (fun r => decide (r.score = s))) :=
  ⟨⟨le_refl 1, by decide⟩,
    search_contract corpusSynth false "Synth.addNoteOn()" .all 1 (le_refl 1) (by decide)
      [exactApiResult synthMethod] rfl⟩

/-- C10: a successful `search` never returns two results with the same
`(id, domain)` pair: the exact stage hits at most one entry per domain
and every later stage skips ids recorded in the `seen` set. -/
theorem search_no_duplicate_pairs (dta : HISEData) (snipsLoaded : Bool) (q : String)
    (d : SearchDomain) (lim : Nat) (rs : List SearchResult)
    (hok : searchData dta snipsLoaded q d lim = .ok rs) :
    rs.Pairwise (fun a b => ¬(a.id = b.id ∧ a.domain = b.domain)) := by
  unfold searchData at hok
  exact searchIn_ok_nodup hok

/-- Concrete run backing `search_no_duplicate_pairs`: a keyword query
over the one-method corpus. -/
theorem search_no_duplicate_pairs_witness :
    [keywordResult (apiItem synthMethod) (kwScore 1 1)].Pairwise
      (fun a b => ¬(a.id = b.id ∧ a.domain = b.domain)) :=
  search_no_duplicate_pairs corpusSynth false "synth" .all 10
    [keywordResult (apiItem synthMethod) (kwScore 1 1)] rfl

/-- C2 counterexample: the canonical id `a.b()` (namespace `A`, method
name `b()`) is a key of the api exact dictionary, but searching for it
returns a single fuzzy result with score 0.8, because `normalizeQuery`
strips the trailing `()` before the exact lookup. -/
theorem search_exact_key_cex :
    (mapGet (buildState corpusParen true).apiMethodIndex "a.b()").isSome = true ∧
    searchData corpusParen false "a.b()" .all 5 =
      .ok [fuzzyResult (apiItem parenMethod) (mkRat 8 10)] ∧
    (fuzzyResult (apiItem parenMethod) (mkRat 8 10)).score ≠ 1 ∧
    (fuzzyResult (apiItem parenMethod) (mkRat 8 10)).matchType ≠ "exact" :=
  ⟨by decide, rfl, by decide, by decide⟩

/-- Documentation for the amended C2 claim's exception carve-out: the
canonical id `a.x[*` is an api dictionary key and a normalization fixed
point, yet with limit 2 the exact hit does not reach the early exit,
the wildcard stage compiles `^a.x[.*$`, and `search` raises instead of
returning; with limit 1 the early exit fires before the wildcard stage
and the exact hit is returned. -/
example :
    (mapGet (buildState corpusBrokenKey true).apiMethodIndex "a.x[*").isSome = true ∧
    normalizeQuery "a.x[*" = "a.x[*" ∧
    searchData corpusBrokenKey false "a.x[*" .all 2 = .error () ∧
    searchData corpusBrokenKey false "a.x[*" .all 1 = .ok [exactApiResult brokenKeyMethod] :=
  ⟨by decide, rfl, rfl, rfl⟩

/-- C2 (amended): for every id that is a key of a non-snippet exact
dictionary *and is fixed by query normalization* (no trailing
parenthesized suffix, no surrounding whitespace — dictionary keys are
already lowercase), whenever `search(id, 'all', limit ≥ 1)` returns a
list at all, its first result has score 1.0 and matchType `exact` and
its id lowercases to the queried id (the result id carries the source
casing of the record, not the key).  The success condition is not
vacuous dressing: a key containing `*` (e.g. `a.x[*`) can instead make
the post-exact-stage wildcard compilation throw, per the error-handling
claim, unless the exact-stage early exit fires first. -/
theorem search_exact_key_first (dta : HISEData) (snipsLoaded : Bool) (key : String) (lim : Nat)
    (rs : List SearchResult)
    (hkey : (mapGet (buildState dta true).apiMethodIndex key).isSome = true ∨
            (mapGet (buildState dta true).propertyIndex key).isSome = true ∨
            (mapGet (buildState dta true).parameterIndex key).isSome = true)
    (hnorm : normalizeQuery key = key)
    (hlim : 1 ≤ lim)
    (hok : searchData dta snipsLoaded key .all lim = .ok rs) :
    ∃ r, rs.head? = some r ∧
      r.score = 1 ∧ r.matchType = "exact" ∧ jsLower r.id = key := by
  unfold searchData at hok
  have hne : (exactStage (buildState dta (snipsLoaded || (SearchDomain.all == SearchDomain.all)
      || (SearchDomain.all == SearchDomain.snippets))) key .all).1 ≠ [] :=
    exactStage_ne_nil_of_key hkey
  have hne' : (exactStage (buildState dta (snipsLoaded || (SearchDomain.all == SearchDomain.all)
      || (SearchDomain.all == SearchDomain.snippets))) (normalizeQuery key) .all).1 ≠ [] := by
    rw [hnorm]
    exact hne
  obtain ⟨r, hh, h1, h2, h3⟩ := searchIn_head_exact_ok hne' hlim hok
  rw [hnorm] at h3
  exact ⟨r, hh, h1, h2, h3⟩

/-- Concrete run backing `search_exact_key_first`: the key
`synth.addnoteon` of the one-method corpus, searched with limit 5. -/
theorem search_exact_key_first_witness :
    searchData corpusSynth false "synth.addnoteon" .all 5 =
      .ok [exactApiResult synthMethod] ∧
    ∃ r, [exactApiResult synthMethod].head? = some r ∧ r.score = 1 ∧
      r.matchType = "exact" ∧ jsLower r.id = "synth.addnoteon" :=
  ⟨rfl,
    search_exact_key_first corpusSynth false "synth.addnoteon" 5 [exactApiResult synthMethod]
      (Or.inl (by decide)) rfl (by decide) rfl⟩

/-- C3: the wildcard query `foo[*` (unterminated character class) makes
`search` raise — the source builds the `RegExp` with no escaping of
metacharacters other than `*` and no try/catch, so the stated
degradation to a literal non-wildcard query does not happen. -/
theorem search_wildcard_raises :
    searchData emptyData false "foo[*" .all 10 = .error () := rfl

/-- C6: the similarity scorer returns exactly the maximum applicable
rule value — 1.0 on a terminal id/name equality, else the maximum of
0.8 (prefix), 0.6 (substring), 0.5 (dot-segment containment) and 0.4
(query token in the keyword list), each counted as 0 when its condition
fails — and the result always lies in `[0, 1]`. -/
theorem calculateSimilarity_spec (q i n : String) (kws : List String) :
    (calculateSimilarity q i n kws =
      if i = q ∨ n = q then 1
      else
        max (max (max (if strStarts i q || strStarts n q then (8 : ℚ)/10 else 0)
          (if strIncludes i q || strIncludes n q then (6 : ℚ)/10 else 0))
          (if (splitDot q).any (fun qp => (splitDot i).any (fun ip => strIncludes ip qp))
            then (5 : ℚ)/10 else 0))
          (if (extractKeywords [q]).any (fun qw => kws.contains qw) then (4 : ℚ)/10 else 0)) ∧
    0 ≤ calculateSimilarity q i n kws ∧ calculateSimilarity q i n kws ≤ 1 := by
  have e8 : mkRat 8 10 = (8 : ℚ)/10 := by rw [Rat.mkRat_eq_div]; norm_num
  have e6 : mkRat 6 10 = (6 : ℚ)/10 := by rw [Rat.mkRat_eq_div]; norm_num
  have e5 : mkRat 5 10 = (5 : ℚ)/10 := by rw [Rat.mkRat_eq_div]; norm_num
  have e4 : mkRat 4 10 = (4 : ℚ)/10 := by rw [Rat.mkRat_eq_div]; norm_num
  refine ⟨?_, calcSim_bounds q i n kws⟩
  rw [calcSim_max_form, e8, e6, e5, e4]

/-- C8: a cache load succeeds exactly when the file parses, the version
tag equals the current schema version `1.1` and all three stored
source-file modification timestamps are unchanged; every mismatch
(including a deliberately altered timestamp) or read/parse failure is a
cache miss, in which case `loadData` falls back to the full rebuild. -/
theorem loadCache_parsed (c : CacheSnapshot) (u a p : ℚ) :
    loadCache (.parsed c) u a p =
      if c.version ≠ "1.1" ∨ c.uiMtime ≠ u ∨ c.apiMtime ≠ a ∨ c.procMtime ≠ p then none
      else some c.data := rfl

theorem loadCache_valid (f : CacheFile) (uiM apiM procM : ℚ) :
    (∀ d, loadCache f uiM apiM procM = some d ↔
      ∃ c, f = .parsed c ∧ c.version = "1.1" ∧ c.uiMtime = uiM ∧ c.apiMtime = apiM ∧
        c.procMtime = procM ∧ c.data = d) ∧
    (loadCache f uiM apiM procM = none → ∀ fresh, loadData f uiM apiM procM fresh = fresh) := by
  constructor
  · intro d
    constructor
    · intro h
      cases f with
      | absent => cases h
      | unreadable => cases h
      | parsed c =>
        rw [loadCache_parsed] at h
        split at h
        · cases h
        · next hcond =>
          push_neg at hcond
          obtain ⟨h1, h2, h3, h4⟩ := hcond
          exact ⟨c, rfl, h1, h2, h3, h4, Option.some.inj h⟩
    · rintro ⟨c, rfl, h1, h2, h3, h4, rfl⟩
      rw [loadCache_parsed, if_neg]
      push_neg
      exact ⟨h1, h2, h3, h4⟩
  · intro hnone fresh
    unfold loadData
    rw [hnone]

/-- Concrete runs backing `loadCache_valid`: a matching snapshot loads;
an altered `procMtime` is a miss and forces the rebuild result. -/
theorem loadCache_valid_witness :
    loadCache (.parsed ⟨"1.1", 5, 6, 7, emptyData⟩) 5 6 7 = some emptyData ∧
    loadCache (.parsed ⟨"1.1", 5, 6, 7, emptyData⟩) 5 6 99 = none ∧
    loadData (.parsed ⟨"1.1", 5, 6, 7, emptyData⟩) 5 6 99 corpusSynth = corpusSynth := by
  have hnone : loadCache (.parsed ⟨"1.1", 5, 6, 7, emptyData⟩) 5 6 99 = none := by
    rw [loadCache_parsed, if_pos]
    right
    right
    right
    norm_num
  refine ⟨?_, hnone, ?_⟩
  · exact ((loadCache_valid (.parsed ⟨"1.1", 5, 6, 7, emptyData⟩) 5 6 7).1 emptyData).mpr
      ⟨_, rfl, rfl, rfl, rfl, rfl, rfl⟩
  · exact (loadCache_valid (.parsed ⟨"1.1", 5, 6, 7, emptyData⟩) 5 6 99).2 hnone corpusSynth

theorem searchTail_mem_origin {st : IndexState} {norm : String} {items : List CatalogItem}
    {acc : List SearchResult × List String} {lim : Nat} {rs : List SearchResult}
    (hok : searchTail st norm items acc lim = .ok rs) :
    ∀ r ∈ rs, r ∈ acc.1 ∨ r.matchType = "keyword" ∨ r.matchType = "fuzzy" := by
  intro r hr
  unfold searchTail at hok
  split at hok
  · obtain rfl := (Except.ok.inj hok).symm
    exact Or.inl ((mem_insSortByKey _).mp (List.take_subset _ _ hr))
  · split at hok
    · obtain rfl := (Except.ok.inj hok).symm
      have h2 := (mem_insSortByKey _).mp (List.take_subset _ _ hr)
      rcases kwLoop_mem _ _ _ _ _ _ r h2 with h | ⟨it, m, _, rfl⟩
      · exact Or.inl h
      · exact Or.inr (Or.inl rfl)
    · obtain rfl := (Except.ok.inj hok).symm
      have h2 := (mem_insSortByKey _).mp (List.take_subset _ _ hr)
      rcases fuzzyLoop_mem _ _ _ _ _ r h2 with h | ⟨it, _, rfl, _⟩
      · rcases kwLoop_mem _ _ _ _ _ _ r h with h3 | ⟨it, m, _, rfl⟩
        · exact Or.inl h3
        · exact Or.inr (Or.inl rfl)
      · exact Or.inr (Or.inr rfl)

theorem searchIn_prefix_mem {dta : HISEData} {ws : Bool} {q : String} {d : SearchDomain}
    {lim : Nat} {rs : List SearchResult} {toks : List RTok}
    (htoks : compileWildcard (wildcardPattern (normalizeQuery q)) = some toks)
    (hok : searchIn (buildState dta ws) q d lim = .ok rs) :
    ∀ r ∈ rs, r.matchType = "prefix" →
      r.score = mkRat 9 10 ∧
        (regexTest toks r.id || regexTest toks (jsLower r.name)) = true := by
  have hn : jsLower (normalizeQuery q) = normalizeQuery q := jsLower_normalizeQuery q
  intro r hr hpt
  unfold searchIn at hok
  split at hok
  · obtain rfl := (Except.ok.inj hok).symm
    have hspec := exactStage_mem_spec hn r (List.take_subset _ _ hr)
    rw [hspec.2.1] at hpt
    exact absurd hpt (by decide)
  · split at hok
    · split at hok
      · exact Except.noConfusion hok
      · next toks2 hc =>
        obtain rfl : toks2 = toks := Option.some.inj (hc.symm.trans htoks)
        rcases searchTail_mem_origin hok r hr with h | h | h
        · rcases prefixLoop_mem _ _ _ _ _ r h with h2 | ⟨it, _, rfl, ht⟩
          · have hspec := exactStage_mem_spec hn r h2
            rw [hspec.2.1] at hpt
            exact absurd hpt (by decide)
          · exact ⟨rfl, ht⟩
        · rw [h] at hpt
          exact absurd hpt (by decide)
        · rw [h] at hpt
          exact absurd hpt (by decide)
    · rcases searchTail_mem_origin hok r hr with h | h | h
      · have hspec := exactStage_mem_spec hn r h
        rw [hspec.2.1] at hpt
        exact absurd hpt (by decide)
      · rw [h] at hpt
        exact absurd hpt (by decide)
      · rw [h] at hpt
        exact absurd hpt (by decide)

/-- C5 counterexample: on a corpus whose only api method is
`SynthX.Foo`, `search("Synth.*", 'api', 10)` returns the id
`synthx.foo` with matchType `prefix` — the dot of the query is compiled
as the regular-expression any-character, so the results are not
restricted to ids of the form `synth.<method>`. -/
theorem search_synth_wildcard_cex :
    searchData corpusSynthX false "Synth.*" .api 10 =
      .ok [prefixResult (apiItem synthXMethod)] ∧
    (prefixResult (apiItem synthXMethod)).id = "synthx.foo" ∧
    strStarts "synthx.foo" "synth." = false :=
  ⟨rfl, rfl, rfl⟩

/-- C5 (amended): every matchType-`prefix` result of
`search("Synth.*", 'api', 10)` has score 0.9 and an id or lowercased
display name matching the compiled anchored pattern `synth` followed by
any single character and any tail (so ids such as `synthx.foo` also
qualify); results of other match types may appear when fewer than 10
prefix matches exist. -/
theorem search_synth_wildcard (dta : HISEData) (snipsLoaded : Bool) (toks : List RTok)
    (htoks : compileWildcard (wildcardPattern (normalizeQuery "Synth.*")) = some toks)
    (rs : List SearchResult)
    (hok : searchData dta snipsLoaded "Synth.*" .api 10 = .ok rs) :
    ∀ r ∈ rs, r.matchType = "prefix" →
      r.score = (9 : ℚ)/10 ∧
        (regexTest toks r.id = true ∨ regexTest toks (jsLower r.name) = true) := by
  unfold searchData at hok
  intro r hr hpt
  obtain ⟨h1, h2⟩ := searchIn_prefix_mem htoks hok r hr hpt
  refine ⟨?_, by simpa using h2⟩
  rw [h1, Rat.mkRat_eq_div]
  norm_num

/-- Concrete run backing `search_synth_wildcard`: the corpus whose only
api method is `Synth.addNoteOn`. -/
theorem search_synth_wildcard_witness :
    compileWildcard (wildcardPattern (normalizeQuery "Synth.*")) = some synthToks ∧
    searchData corpusSynth false "Synth.*" .api 10 = .ok [prefixResult (apiItem synthMethod)] ∧
    ∀ r ∈ [prefixResult (apiItem synthMethod)], r.matchType = "prefix" →
      r.score = (9 : ℚ)/10 ∧
        (regexTest synthToks r.id = true ∨ regexTest synthToks (jsLower r.name) = true) :=
  ⟨rfl, rfl,
    search_synth_wildcard corpusSynth false synthToks rfl [prefixResult (apiItem synthMethod)] rfl⟩

theorem findSimilar_fold (norm : String) (d : SearchDomain) :
    ∀ (l : List CatalogItem) (acc : List (String × ℚ)),
      l.foldl (fun acc it =>
        if d ≠ .all ∧ it.domain ≠ d then acc
        else
          if mkRat 3 10 < calculateSimilarity norm it.id (jsLower it.name) it.keywords
          then acc ++ [(it.name, calculateSimilarity norm it.id (jsLower it.name) it.keywords)]
          else acc) acc =
      acc ++ (((l.filter (fun it => decide (d = .all ∨ it.domain = d))).filter
        (fun it => decide (mkRat 3 10 <
          calculateSimilarity norm it.id (jsLower it.name) it.keywords))).map
        (fun it => (it.name, calculateSimilarity norm it.id (jsLower it.name) it.keywords))) := by
  intro l
  induction l with
  | nil =>
    intro acc
    simp
  | cons it rest ih =>
    intro acc
    simp only [List.foldl_cons, List.filter_cons]
    by_cases h1 : d ≠ .all ∧ it.domain ≠ d
    · have hk : decide (d = .all ∨ it.domain = d) = false :=
        decide_eq_false (by rintro (h | h) <;> [exact h1.1 h; exact h1.2 h])
      rw [if_pos h1, hk]
      simp only [Bool.false_eq_true, if_false]
      exact ih acc
    · have hk : decide (d = .all ∨ it.domain = d) = true := by
        rw [decide_eq_true_eq]
        rcases not_and_or.mp h1 with h | h
        · exact Or.inl (not_not.mp h)
        · exact Or.inr (not_not.mp h)
      rw [if_neg h1, hk]
      simp only [if_true, List.filter_cons]
      by_cases h2 : mkRat 3 10 < calculateSimilarity norm it.id (jsLower it.name) it.keywords
      · have hk2 : decide (mkRat 3 10 <
            calculateSimilarity norm it.id (jsLower it.name) it.keywords) = true :=
          decide_eq_true h2
        rw [if_pos h2, hk2]
        simp only [if_true, List.map_cons]
        rw [ih (acc ++ [(it.name, calculateSimilarity norm it.id (jsLower it.name) it.keywords)]),
          List.append_assoc]
        rfl
      · have hk2 : decide (mkRat 3 10 <
            calculateSimilarity norm it.id (jsLower it.name) it.keywords) = false :=
          decide_eq_false h2
        rw [if_neg h2, hk2]
        simp only [Bool.false_eq_true, if_false]
        exact ih acc

/-- C7 counterexample: `findSimilar` returns display names, not
canonical ids — on the one-method corpus the matched item has the
canonical id `synth.addnoteon` but the suggestion list carries
`Synth.addNoteOn`. -/
theorem findSimilar_names_cex :
    findSimilarData corpusSynth false "synth" 5 .api = ["Synth.addNoteOn"] ∧
    (apiItem synthMethod).id = "synth.addnoteon" ∧
    ("Synth.addNoteOn" : String) ≠ "synth.addnoteon" :=
  ⟨rfl, rfl, by decide⟩

/-- C7 (amended): `findSimilar(query, limit, domain)` returns exactly
the items of the requested domain whose similarity score — computed by
the same scorer as fuzzy search — strictly exceeds 0.3, sorted
score-descending with ties in catalog order and truncated to `limit`;
the returned strings are the items' display names (`item.name`), whose
lowercase form is the canonical id for non-snippet items, not the
canonical ids themselves. -/
theorem findSimilar_spec (dta : HISEData) (snipsLoaded : Bool) (q : String) (lim : Nat)
    (d : SearchDomain) :
    findSimilarData dta snipsLoaded q lim d =
      findSimilarPipeline
        (buildState dta (snipsLoaded || (d == SearchDomain.all) || (d == SearchDomain.snippets)))
        q lim d := by
  unfold findSimilarData findSimilarIn findSimilarPipeline
  rw [findSimilar_fold]
  rfl

theorem related_fold (norm : String) (item : CatalogItem) :
    ∀ (l : List CatalogItem) (acc : List (String × ℚ)),
      l.foldl (fun acc other =>
        if other.id == norm then acc
        else
          if 0 < (item.keywords.filter (fun k => other.keywords.contains k)).length then
            acc ++ [(other.name, overlapScore item other)]
          else acc) acc =
      acc ++ ((l.filter (fun other => !(other.id == norm) &&
        decide (0 < (item.keywords.filter (fun k => other.keywords.contains k)).length))).map
        (fun other => (other.name, overlapScore item other))) := by
  intro l
  induction l with
  | nil =>
    intro acc
    simp
  | cons other rest ih =>
    intro acc
    simp only [List.foldl_cons, List.filter_cons]
    by_cases h1 : (other.id == norm) = true
    · rw [if_pos h1, h1]
      simp only [Bool.not_true, Bool.false_and, Bool.false_eq_true, if_false]
      exact ih acc
    · rw [if_neg h1, Bool.not_eq_true] at *
      rw [h1]
      simp only [Bool.not_false, Bool.true_and]
      by_cases h2 : 0 < (item.keywords.filter (fun k => other.keywords.contains k)).length
      · rw [if_pos h2, decide_eq_true h2]
        simp only [if_true, List.map_cons]
        rw [ih (acc ++ [(other.name, overlapScore item other)]), List.append_assoc]
        rfl
      · rw [if_neg h2, decide_eq_false h2]
        simp only [Bool.false_eq_true, if_false]
        exact ih acc

/-- C9 counterexample: a snippet that lists its own id among its
related APIs gets that id injected back into its related list — the
subject itself is returned. -/
theorem relatedItems_self_cex :
    getRelatedItemsIn (buildState corpusSnippet true) "foo" 5 = ["foo"] ∧
    (buildState corpusSnippet true).allItems.find?
      (fun i => i.id == normalizeQuery "foo") = some (snipItem selfRefSnippet) ∧
    (snipItem selfRefSnippet).id = "foo" :=
  ⟨rfl, rfl, rfl⟩

/-- C9 (amended): for a non-snippet subject, `getRelatedItems(id, limit)`
returns exactly the display names of the other catalog entries (subject
excluded by id) with nonzero keyword overlap, scored
`overlap / max(|subject.keywords|, 1)` plus a `+0.2` same-domain bonus,
sorted score-descending and truncated to `limit`.  For snippet subjects
the explicit cross-reference injection can additionally insert declared
reference strings — including, as the counterexample shows, the
subject itself — without the subject/overlap checks. -/
theorem relatedItems_spec (dta : HISEData) (ws : Bool) (id0 : String) (lim : Nat)
    (item : CatalogItem)
    (hfind : (buildState dta ws).allItems.find?
      (fun i => i.id == normalizeQuery id0) = some item)
    (hdom : item.domain ≠ .snippets) :
    getRelatedItemsIn (buildState dta ws) id0 lim =
      relatedPipeline (buildState dta ws) id0 item lim ∧
    ∀ other : CatalogItem, overlapScore item other =
      ((item.keywords.filter (fun k => other.keywords.contains k)).length : ℚ) /
        ((max item.keywords.length 1 : ℕ) : ℚ) +
        (if other.domain = item.domain then (2 : ℚ)/10 else 0) := by
  constructor
  · unfold getRelatedItemsIn
    simp only [hfind]
    have hsnip : (item.domain == SearchDomain.snippets) = false := by
      rw [beq_eq_false_iff_ne]
      exact hdom
    unfold relatedWithRefs
    rw [hsnip]
    simp only [Bool.false_eq_true, if_false]
    unfold relatedBase relatedPipeline
    rw [related_fold]
    rfl
  · intro other
    unfold overlapScore
    rw [qadd_eq, qdiv_eq]
    congr 1
    · rw [Rat.mkRat_eq_div, Rat.mkRat_eq_div]
      norm_num
    · by_cases hd : other.domain = item.domain
      · rw [if_pos hd, if_pos (by rw [hd]; exact beq_self_eq_true _), Rat.mkRat_eq_div]
        norm_num
      · rw [if_neg hd, if_neg ?_]
        rw [beq_eq_false_iff_ne.mpr hd]
        simp

theorem relatedItems_spec_witness :
    (buildState corpusUi false).allItems.find?
      (fun i => i.id == normalizeQuery "Btn.textColour") = some (uiItem uiPropText) ∧
    ((uiItem uiPropText).domain ≠ SearchDomain.snippets) ∧
    (getRelatedItemsIn (buildState corpusUi false) "Btn.textColour" 5 =
      relatedPipeline (buildState corpusUi false) "Btn.textColour" (uiItem uiPropText) 5 ∧
    ∀ other : CatalogItem, overlapScore (uiItem uiPropText) other =
      (((uiItem uiPropText).keywords.filter
          (fun k => other.keywords.contains k)).length : ℚ) /
        ((max (uiItem uiPropText).keywords.length 1 : ℕ) : ℚ) +
        (if other.domain = (uiItem uiPropText).domain then (2 : ℚ)/10 else 0)) :=
  ⟨rfl, by decide,
    relatedItems_spec corpusUi false "Btn.textColour" 5 (uiItem uiPropText) rfl (by decide)⟩

theorem isJsSpace_of_lineTerm {c : Char} (h : isLineTerm c = true) : isJsSpace c = true := by
  unfold isLineTerm at h
  unfold isJsSpace
  simp only [Bool.or_eq_true, decide_eq_true_eq] at h ⊢
  omega

theorem stripEmptyParens_subset {l : List Char} : stripEmptyParens l ⊆ l := by
  intro c hc
  unfold stripEmptyParens at hc
  split at hc
  · next rest heq =>
    rw [← List.mem_reverse, heq]
    exact List.mem_cons_of_mem _ (List.mem_cons_of_mem _ (List.mem_reverse.mp hc))
  · exact hc

theorem stripArgList_subset {l : List Char} : stripArgList l ⊆ l := by
  intro c hc
  unfold stripArgList at hc
  split at hc
  · split at hc
    · exact List.take_subset _ _ hc
    · exact hc
  · exact hc

theorem stripEmptyParens_of_no_lparen {l : List Char} (h : '(' ∉ l) :
    stripEmptyParens l = l := by
  unfold stripEmptyParens
  split
  · next rest heq =>
    exfalso
    apply h
    rw [← List.mem_reverse, heq]
    exact List.mem_cons_of_mem _ (List.mem_cons_self _ _)
  · rfl

theorem stripEmptyParens_of_last_ne {l : List Char} (h : l.getLast? ≠ some ')') :
    stripEmptyParens l = l := by
  unfold stripEmptyParens
  split
  · next rest heq =>
    exfalso
    apply h
    rw [← List.head?_reverse, heq]
    rfl
  · rfl

theorem stripArgList_of_last_ne {l : List Char} (h : l.getLast? ≠ some ')') :
    stripArgList l = l := by
  unfold stripArgList
  rw [if_neg h]

theorem argListPos_ne_none {l : List Char} (hnl : ∀ c ∈ l, isLineTerm c = false)
    (h : '(' ∈ l) : argListPos l ≠ none := by
  induction l with
  | nil => exact absurd h (List.not_mem_nil _)
  | cons c rest ih =>
    unfold argListPos
    by_cases hc : c = '('
    · have hall : (rest.dropLast).all (fun d => !(isLineTerm d)) = true := by
        rw [List.all_eq_true]
        intro d hd
        have hdr : d ∈ rest := List.dropLast_subset _ hd
        rw [hnl d (List.mem_cons_of_mem _ hdr)]
        rfl
      rw [decide_eq_true hc, hall]
      simp
    · rw [decide_eq_false hc]
      simp only [Bool.false_and, Bool.false_eq_true, if_false]
      have h2 : '(' ∈ rest := by
        rcases List.mem_cons.mp h with he | hm
        · exact absurd he.symm hc
        · exact hm
      rcases hr : argListPos rest with _ | j
      · exact absurd hr (ih (fun d hd => hnl d (List.mem_cons_of_mem _ hd)) h2)
      · simp

theorem argListPos_take {l : List Char} (hnl : ∀ c ∈ l, isLineTerm c = false) :
    ∀ {i : Nat}, argListPos l = some i → '(' ∉ l.take i := by
  induction l with
  | nil => intro i h; exact Option.noConfusion h
  | cons c rest ih =>
    intro i h
    unfold argListPos at h
    by_cases hc : c = '('
    · have hall : (rest.dropLast).all (fun d => !(isLineTerm d)) = true := by
        rw [List.all_eq_true]
        intro d hd
        have hdr : d ∈ rest := List.dropLast_subset _ hd
        rw [hnl d (List.mem_cons_of_mem _ hdr)]
        rfl
      rw [decide_eq_true hc, hall] at h
      simp only [Bool.and_self, if_true] at h
      have hi := Option.some.inj h
      rw [← hi]
      simp
    · rw [decide_eq_false hc] at h
      simp only [Bool.false_and, Bool.false_eq_true, if_false] at h
      rcases hr : argListPos rest with _ | j
      · rw [hr] at h
        exact Option.noConfusion h
      · rw [hr] at h
        simp only [Option.map] at h
        have hi := Option.some.inj h
        rw [← hi, List.take_succ_cons]
        intro hm
        rcases List.mem_cons.mp hm with he | hm2
        · exact hc he.symm
        · exact ih (fun d hd => hnl d (List.mem_cons_of_mem _ hd)) hr hm2

theorem stripArgList_dichotomy {l : List Char} (hnl : ∀ c ∈ l, isLineTerm c = false) :
    '(' ∉ stripArgList l ∨ (stripArgList l).getLast? ≠ some ')' := by
  by_cases hlast : l.getLast? = some ')'
  · left
    rcases hp : argListPos l with _ | i
    · have hno : '(' ∉ l := fun hm => argListPos_ne_none hnl hm hp
      unfold stripArgList
      rw [if_pos hlast, hp]
      exact hno
    · unfold stripArgList
      rw [if_pos hlast, hp]
      exact argListPos_take hnl hp
  · right
    rw [stripArgList_of_last_ne hlast]
    exact hlast

theorem argListPos_none {l : List Char} (h : '(' ∉ l) : argListPos l = none := by
  induction l with
  | nil => rfl
  | cons c rest ih =>
    unfold argListPos
    have hc : c ≠ '(' := fun he => h (he ▸ List.mem_cons_self _ _)
    rw [decide_eq_false hc]
    simp only [Bool.false_and, Bool.false_eq_true, if_false]
    rw [ih (fun hm => h (List.mem_cons_of_mem _ hm))]
    rfl

theorem stripArgList_of_no_lparen {l : List Char} (h : '(' ∉ l) :
    stripArgList l = l := by
  unfold stripArgList
  rw [argListPos_none h]
  split
  · rfl
  · rfl

theorem map_toLower_not_mem_lparen {l : List Char} (h : '(' ∉ l) :
    '(' ∉ l.map Char.toLower := by
  intro hm
  rcases List.mem_map.mp hm with ⟨c, hc, he⟩
  rw [toLower_eq_iff_of_nonletter (by decide) (by decide)] at he
  exact h (he ▸ hc)

theorem getLast_map_toLower (l : List Char) :
    (l.map Char.toLower).getLast? = l.getLast?.map Char.toLower := by
  induction l with
  | nil => rfl
  | cons a rest ih =>
    cases rest with
    | nil => rfl
    | cons b rest2 =>
      simp only [List.map_cons] at *
      rw [List.getLast?_cons_cons, List.getLast?_cons_cons]
      exact ih

theorem map_toLower_getLast_ne_rparen {l : List Char} (h : l.getLast? ≠ some ')') :
    (l.map Char.toLower).getLast? ≠ some ')' := by
  rw [getLast_map_toLower]
  rcases hl : l.getLast? with _ | c
  · exact fun hm => Option.noConfusion hm
  · intro hm
    simp only [Option.map] at hm
    have hc := Option.some.inj hm
    rw [toLower_eq_iff_of_nonletter (by decide) (by decide)] at hc
    rw [hl, hc] at h
    exact h rfl

theorem dropWhile_eq_self_of_all {p : Char → Bool} {l : List Char}
    (h : ∀ c ∈ l, p c = false) : l.dropWhile p = l := by
  cases l with
  | nil => rfl
  | cons c rest =>
    rw [List.dropWhile_cons, h c (List.mem_cons_self _ _)]
    simp

theorem jsTrimList_eq_self {l : List Char} (h : ∀ c ∈ l, isJsSpace c = false) :
    jsTrimList l = l := by
  unfold jsTrimList
  rw [dropWhile_eq_self_of_all h,
    dropWhile_eq_self_of_all (fun c hc => h c (List.mem_reverse.mp hc)),
    List.reverse_reverse]

theorem normalizeQuery_fixed {r : List Char}
    (hws : ∀ c ∈ r, isJsSpace c = false)
    (hlow : r.map Char.toLower = r)
    (hd : '(' ∉ r ∨ r.getLast? ≠ some ')') :
    normalizeQuery (String.mk r) = String.mk r := by
  have h1 : stripEmptyParens r = r := by
    rcases hd with h | h
    · exact stripEmptyParens_of_no_lparen h
    · exact stripEmptyParens_of_last_ne h
  have h2 : stripArgList r = r := by
    rcases hd with h | h
    · exact stripArgList_of_no_lparen h
    · exact stripArgList_of_last_ne h
  show String.mk (jsTrimList ((stripArgList (stripEmptyParens r)).map Char.toLower)) =
    String.mk r
  rw [h1, h2, hlow, jsTrimList_eq_self hws]

/-- C4 counterexample: normalization is NOT idempotent.  `"a() "` ends in
whitespace, so neither paren-stripping rule fires on the first pass and
trimming leaves `"a()"`; the second pass then strips the `()` suffix. -/
theorem normalizeQuery_not_idem_cex :
    normalizeQuery "a() " = "a()" ∧
    normalizeQuery (normalizeQuery "a() ") = "a" ∧
    normalizeQuery (normalizeQuery "a() ") ≠ normalizeQuery "a() " :=
  ⟨rfl, rfl, by decide⟩

/-- C4 (amended): for every query containing no JavaScript whitespace
character, normalization (strip trailing `()`, strip trailing
parenthesized argument list, lowercase, trim) is idempotent; in
particular `"Synth.addNoteOn()"` and `"Synth.addNoteOn"` normalize to
the same string.  (Unrestricted idempotence fails: trailing whitespace
can shield a trailing `()` from the paren-stripping passes, which then
fire on the second application — see the counterexample.) -/
theorem normalizeQuery_idem (q : String)
    (h : ∀ c ∈ q.data, isJsSpace c = false) :
    normalizeQuery (normalizeQuery q) = normalizeQuery q ∧
    normalizeQuery "Synth.addNoteOn()" = normalizeQuery "Synth.addNoteOn" := by
  refine ⟨?_, rfl⟩
  have hnl1 : ∀ c ∈ stripEmptyParens q.data, isLineTerm c = false := by
    intro c hc
    cases hlt : isLineTerm c with
    | false => rfl
    | true =>
      have hj := h c (stripEmptyParens_subset hc)
      rw [isJsSpace_of_lineTerm hlt] at hj
      exact Bool.noConfusion hj
  have hwsr : ∀ c ∈ (stripArgList (stripEmptyParens q.data)).map Char.toLower,
      isJsSpace c = false := by
    intro c hc
    rcases List.mem_map.mp hc with ⟨d, hd, rfl⟩
    rw [isJsSpace_toLower]
    exact h d (stripEmptyParens_subset (stripArgList_subset hd))
  have hlow : ((stripArgList (stripEmptyParens q.data)).map Char.toLower).map Char.toLower
      = (stripArgList (stripEmptyParens q.data)).map Char.toLower := by
    rw [List.map_map]
    exact List.map_congr_left (fun c _ => toLower_toLower c)
  have hnq : normalizeQuery q =
      String.mk ((stripArgList (stripEmptyParens q.data)).map Char.toLower) := by
    show String.mk (jsTrimList ((stripArgList (stripEmptyParens q.data)).map Char.toLower))
      = _
    rw [jsTrimList_eq_self hwsr]
  rw [hnq]
  apply normalizeQuery_fixed hwsr hlow
  rcases stripArgList_dichotomy hnl1 with hno | hlast
  · exact Or.inl (map_toLower_not_mem_lparen hno)
  · exact Or.inr (map_toLower_getLast_ne_rparen hlast)

theorem normalizeQuery_idem_witness :
    (∀ c ∈ ("Synth.addNoteOn()" : String).data, isJsSpace c = false) ∧
    (normalizeQuery (normalizeQuery "Synth.addNoteOn()") =
      normalizeQuery "Synth.addNoteOn()" ∧
    normalizeQuery "Synth.addNoteOn()" = normalizeQuery "Synth.addNoteOn") :=
  ⟨by decide, normalizeQuery_idem "Synth.addNoteOn()" (by decide)⟩
